import Mathlib

/-!
Verification of the lifetmm transfer-matrix core.

This file is a shallow embedding of the numerical core of the repository:

* `src/lifetmm/TransferMatrix.py`  (the primary implementation, prefix `TM`)
* `src/lifetmm/Methods/TransferMatrix.py` (the older near-duplicate, prefix `MTM`)
* `src/lifetmm/HelperFunctions.py` (`roots`, `root_search`, `snell`, `det`)

Floating point numbers of the source are modelled by real numbers `ℝ` and
complex numbers `ℂ`; numpy's elementwise complex square root is modelled by
the principal branch `csqrt` below.  A structure
`d_list = [d0, .., d(N-1)]`, `n_list = [n0, .., n(N-1)]` is represented by
its entry index `n0`, the list `internals = [(n1, d1), .., (n(N-2), d(N-2))]`
of internal layers with their thicknesses, and the exit index `nLast`; the
cladding thicknesses `d0`, `d(N-1)` never enter any of the functions
embedded here.  2×2 complex numpy arrays are the structure `M2` with
`m00 = m[0, 0]`, `m01 = m[0, 1]`, `m10 = m[1, 0]`, `m11 = m[1, 1]`.
-/

noncomputable section


/-- Principal complex square root: modulus `Real.sqrt |z|`, argument
`arg z / 2 ∈ (-π/2, π/2]`.  This is the branch numpy's `sqrt` computes on a
complex array (`calc_xi` evaluates `sqrt(nj ** 2 - n_11 ** 2)` on the complex
`n_list`): nonnegative real part, with the cut along the negative real axis
sent to the positive imaginary axis. -/
def csqrt (z : ℂ) : ℂ :=
  (Real.sqrt (Complex.abs z)) * Complex.exp (Complex.I * (Complex.arg z) / 2)

/-- Polarisation: `'s'`/`'TE'` versus `'p'`/`'TM'` in the source. -/
inductive Pol
  | s
  | p
deriving DecidableEq

/-- Field choice: `'E'` (default) versus `'H'` in the source. -/
inductive FieldKind
  | E
  | H
deriving DecidableEq

/-- The light parameters every matrix kernel reads: polarisation, field kind,
normalised parallel wavevector `n_11`, and vacuum wavevector
`k_vac = 2π/lam_vac`. -/
structure TMConfig where
  pol : Pol
  fk : FieldKind
  n11 : ℝ
  kVac : ℝ

/-- Normalised perpendicular wavevector `calc_xi`:
`sqrt(nj ** 2 - n_11 ** 2)`. -/
def xi (c : TMConfig) (nj : ℂ) : ℂ :=
  csqrt (nj ^ 2 - ((c.n11 : ℂ)) ^ 2)

/-- Fresnel reflection and transmission coefficients for the `E` field at
the interface between layers of index `nj`, `nk`, as computed inside
`i_matrix` / `calc_i_matrix` (both implementations use the same formulas). -/
def rtCoefE (c : TMConfig) (nj nk : ℂ) : ℂ × ℂ :=
  match c.pol with
  | Pol.p =>
      ((nk ^ 2 * xi c nj - nj ^ 2 * xi c nk) / (nk ^ 2 * xi c nj + nj ^ 2 * xi c nk),
       (2 * nj * nk * xi c nj) / (xi c nj * nk ^ 2 + xi c nk * nj ^ 2))
  | Pol.s =>
      ((xi c nj - xi c nk) / (xi c nj + xi c nk),
       (2 * xi c nj) / (xi c nj + xi c nk))

/-- The interface coefficients after the optional `H`-field rescaling
`t *= nk / nj` (the reflection coefficient is unchanged). -/
def rtCoef (c : TMConfig) (nj nk : ℂ) : ℂ × ℂ :=
  match c.fk with
  | FieldKind.H => ((rtCoefE c nj nk).1, (rtCoefE c nj nk).2 * (nk / nj))
  | FieldKind.E => rtCoefE c nj nk

/-- A 2×2 complex matrix (a `2x2` complex numpy array). -/
structure M2 where
  m00 : ℂ
  m01 : ℂ
  m10 : ℂ
  m11 : ℂ

instance : Mul M2 :=
  ⟨fun A B =>
    ⟨A.m00 * B.m00 + A.m01 * B.m10, A.m00 * B.m01 + A.m01 * B.m11,
     A.m10 * B.m00 + A.m11 * B.m10, A.m10 * B.m01 + A.m11 * B.m11⟩⟩

/-- The 2×2 determinant helper `det` of `HelperFunctions.py`:
`m[0,0]*m[1,1] - m[1,0]*m[0,1]`. -/
def M2.det (A : M2) : ℂ := A.m00 * A.m11 - A.m10 * A.m01

/-- Matrix–vector product, used to express conservation of flux. -/
def M2.mulVec (A : M2) (v : ℂ × ℂ) : ℂ × ℂ :=
  (A.m00 * v.1 + A.m01 * v.2, A.m10 * v.1 + A.m11 * v.2)

/-- The interference matrix `(1/t) * [[1, r], [r, 1]]` that both
implementations return when `t ≠ 0`. -/
def iMat (c : TMConfig) (nj nk : ℂ) : M2 :=
  ⟨1 / (rtCoef c nj nk).2, (rtCoef c nj nk).1 / (rtCoef c nj nk).2,
   (rtCoef c nj nk).1 / (rtCoef c nj nk).2, 1 / (rtCoef c nj nk).2⟩

/-- Result type of the full interface-matrix kernels, recording the
degenerate `t = 0` branches: `TransferMatrix.i_matrix` returns a matrix of
`inf` entries (`infinite`), `Methods.calc_i_matrix` divides by `nan`
(`nanMat`); IEEE infinities and NaNs have no image in `ℂ`, so those two
outcomes are kept as explicit constructors. -/
inductive IMatResult
  | infinite
  | nanMat
  | ok (m : M2)

/-- `TransferMatrix.i_matrix`: on `t == 0` it logs and returns the all-`inf`
matrix, otherwise `(1/t) * [[1, r], [r, 1]]`. -/
def TM_i_matrix (c : TMConfig) (nj nk : ℂ) : IMatResult :=
  if (rtCoef c nj nk).2 = 0 then IMatResult.infinite else IMatResult.ok (iMat c nj nk)

/-- `Methods.calc_i_matrix`: on `t == 0` it sets `t = nan` and returns the
all-`nan` matrix `(1/nan) * [[1, r], [r, 1]]`, otherwise the same matrix as
the primary implementation. -/
def MTM_calc_i_matrix (c : TMConfig) (nj nk : ℂ) : IMatResult :=
  if (rtCoef c nj nk).2 = 0 then IMatResult.nanMat else IMatResult.ok (iMat c nj nk)

/-- The propagation matrix `l_matrix` / `calc_l_matrix`:
`diag(exp(-i*qj*dj), exp(i*qj*dj))` with `qj = xi j * k_vac`. -/
def lMat (c : TMConfig) (nj : ℂ) (dj : ℝ) : M2 :=
  ⟨Complex.exp (-Complex.I * (xi c nj * (c.kVac : ℂ)) * (dj : ℂ)), 0, 0,
   Complex.exp (Complex.I * (xi c nj * (c.kVac : ℂ)) * (dj : ℂ))⟩

/-- Refractive index of the layer after the internal layers `l`; `nLast`
when `l` is empty.  This is the `n_list[j + 1]` lookup of the source's
matrix chain. -/
def peek : List (ℂ × ℝ) → ℂ → ℂ
  | [], nLast => nLast
  | (p :: _), _ => p.1

/-- The loop of `s_matrix` (and of `s_primed_matrix` / `s_dprimed_matrix`):
starting from an accumulated product `acc`, multiply by
`l_matrix(j) @ i_matrix(j, j+1)` for each remaining internal layer `j`. -/
def sGo (c : TMConfig) (acc : M2) : List (ℂ × ℝ) → ℂ → M2
  | [], _ => acc
  | ((nj, dj) :: rest), nLast =>
      sGo c (acc * lMat c nj dj * iMat c nj (peek rest nLast)) rest nLast

/-- `TransferMatrix.s_matrix` / `Methods.calc_s_matrix`:
`s = i_matrix(0,1)`, then `s = s @ l_matrix(j) @ i_matrix(j, j+1)` for
`j = 1, .., N-2`. -/
def sMatrix (c : TMConfig) (n0 : ℂ) (internals : List (ℂ × ℝ)) (nLast : ℂ) : M2 :=
  sGo c (iMat c n0 (peek internals nLast)) internals nLast

/-- `s_primed_matrix(layer)` / `calc_s_primed_matrix(layer)`:
`i_matrix(0,1)` followed by the loop over the internal layers before the
target layer.  `pre` is the list of those internal layers and `nj` the
index of the target layer itself (the `n_list[layer]` the last interface
matrix of the loop reaches). -/
def sPrimedMat (c : TMConfig) (n0 : ℂ) (pre : List (ℂ × ℝ)) (nj : ℂ) : M2 :=
  sGo c (iMat c n0 (peek pre nj)) pre nj

/-- `s_dprimed_matrix(layer)` / `calc_s_dprimed_matrix(layer)`:
`i_matrix(layer, layer+1)` followed by the loop over the internal layers
after the target layer.  `nj` is the target layer's index and `post` the
internal layers after it. -/
def sDPrimedMat (c : TMConfig) (nj : ℂ) (post : List (ℂ × ℝ)) (nLast : ℂ) : M2 :=
  sGo c (iMat c nj (peek post nLast)) post nLast

/-- `TransferMatrix.layer_field_amplitudes(layer)`.  The layer index runs
from `0` (entry cladding) to `internals.length + 1` (exit cladding); the
mode classification is `n_11 < max(n[0].real, n[-1].real)` (radiative)
versus guided.  For an internal layer the primary implementation uses the
multiple-reflection recombination of `s_prime` and `s_dprime`; for guided
internal layers it inverts `s_prime` through the 2×2 `det` helper. -/
def TM_layer_field_amplitudes (c : TMConfig) (n0 : ℂ) (internals : List (ℂ × ℝ))
    (nLast : ℂ) (layer : ℕ) : ℂ × ℂ :=
  if c.n11 < max n0.re nLast.re then
    if layer = 0 then
      (1, (sMatrix c n0 internals nLast).m10 / (sMatrix c n0 internals nLast).m00)
    else if layer = internals.length + 1 then
      (1 / (sMatrix c n0 internals nLast).m00, 0)
    else
      ((1 / (sPrimedMat c n0 (internals.take (layer - 1))
          (internals.getD (layer - 1) (0, 0)).1).m00) /
        (1 - (-(sPrimedMat c n0 (internals.take (layer - 1))
              (internals.getD (layer - 1) (0, 0)).1).m01 /
            (sPrimedMat c n0 (internals.take (layer - 1))
              (internals.getD (layer - 1) (0, 0)).1).m00) *
          ((sDPrimedMat c (internals.getD (layer - 1) (0, 0)).1
              (internals.drop layer) nLast).m10 /
            (sDPrimedMat c (internals.getD (layer - 1) (0, 0)).1
              (internals.drop layer) nLast).m00) *
          Complex.exp (Complex.I * 2 *
            (xi c (internals.getD (layer - 1) (0, 0)).1 * (c.kVac : ℂ)) *
            ((internals.getD (layer - 1) (0, 0)).2 : ℂ))),
       (1 / (sPrimedMat c n0 (internals.take (layer - 1))
          (internals.getD (layer - 1) (0, 0)).1).m00) /
        (1 - (-(sPrimedMat c n0 (internals.take (layer - 1))
              (internals.getD (layer - 1) (0, 0)).1).m01 /
            (sPrimedMat c n0 (internals.take (layer - 1))
              (internals.getD (layer - 1) (0, 0)).1).m00) *
          ((sDPrimedMat c (internals.getD (layer - 1) (0, 0)).1
              (internals.drop layer) nLast).m10 /
            (sDPrimedMat c (internals.getD (layer - 1) (0, 0)).1
              (internals.drop layer) nLast).m00) *
          Complex.exp (Complex.I * 2 *
            (xi c (internals.getD (layer - 1) (0, 0)).1 * (c.kVac : ℂ)) *
            ((internals.getD (layer - 1) (0, 0)).2 : ℂ))) *
        ((sDPrimedMat c (internals.getD (layer - 1) (0, 0)).1
            (internals.drop layer) nLast).m10 /
          (sDPrimedMat c (internals.getD (layer - 1) (0, 0)).1
            (internals.drop layer) nLast).m00) *
        Complex.exp (Complex.I * 2 *
          (xi c (internals.getD (layer - 1) (0, 0)).1 * (c.kVac : ℂ)) *
          ((internals.getD (layer - 1) (0, 0)).2 : ℂ)))
  else
    if layer = 0 then (0, 1)
    else if layer = internals.length + 1 then
      (1 / (sMatrix c n0 internals nLast).m10, 0)
    else
      (-(sPrimedMat c n0 (internals.take (layer - 1))
            (internals.getD (layer - 1) (0, 0)).1).m01 /
          (sPrimedMat c n0 (internals.take (layer - 1))
            (internals.getD (layer - 1) (0, 0)).1).det,
        (sPrimedMat c n0 (internals.take (layer - 1))
            (internals.getD (layer - 1) (0, 0)).1).m00 /
          (sPrimedMat c n0 (internals.take (layer - 1))
            (internals.getD (layer - 1) (0, 0)).1).det)

/-- `Methods.calc_layer_field_amplitudes(layer)`.  The branch is chosen by
the stored `self.guided` flag; for a radiative internal layer this
implementation inverts `s_prime` against the entry amplitudes `(1, r)`
instead of the multiple-reflection formula, and for the guided exit layer
it divides by `s[0, 1]` where the primary implementation divides by
`s[1, 0]`. -/
def MTM_calc_layer_field_amplitudes (guided : Bool) (c : TMConfig) (n0 : ℂ)
    (internals : List (ℂ × ℝ)) (nLast : ℂ) (layer : ℕ) : ℂ × ℂ :=
  match guided with
  | false =>
      if layer = 0 then
        (1, (sMatrix c n0 internals nLast).m10 / (sMatrix c n0 internals nLast).m00)
      else if layer = internals.length + 1 then
        (1 / (sMatrix c n0 internals nLast).m00, 0)
      else
        (((sPrimedMat c n0 (internals.take (layer - 1))
              (internals.getD (layer - 1) (0, 0)).1).m11 -
            ((sMatrix c n0 internals nLast).m10 / (sMatrix c n0 internals nLast).m00) *
              (sPrimedMat c n0 (internals.take (layer - 1))
                (internals.getD (layer - 1) (0, 0)).1).m01) /
            (sPrimedMat c n0 (internals.take (layer - 1))
              (internals.getD (layer - 1) (0, 0)).1).det,
          (((sMatrix c n0 internals nLast).m10 / (sMatrix c n0 internals nLast).m00) *
              (sPrimedMat c n0 (internals.take (layer - 1))
                (internals.getD (layer - 1) (0, 0)).1).m00 -
            (sPrimedMat c n0 (internals.take (layer - 1))
              (internals.getD (layer - 1) (0, 0)).1).m10) /
            (sPrimedMat c n0 (internals.take (layer - 1))
              (internals.getD (layer - 1) (0, 0)).1).det)
  | true =>
      if layer = 0 then (0, 1)
      else if layer = internals.length + 1 then
        (1 / (sMatrix c n0 internals nLast).m01, 0)
      else
        (-(sPrimedMat c n0 (internals.take (layer - 1))
              (internals.getD (layer - 1) (0, 0)).1).m01 /
            (sPrimedMat c n0 (internals.take (layer - 1))
              (internals.getD (layer - 1) (0, 0)).1).det,
          (sPrimedMat c n0 (internals.take (layer - 1))
              (internals.getD (layer - 1) (0, 0)).1).m00 /
            (sPrimedMat c n0 (internals.take (layer - 1))
              (internals.getD (layer - 1) (0, 0)).1).det)

/-- `calc_r_and_t`: `r = s[1,0]/s[0,0]`, `t = 1/s[0,0]` (identical in both
implementations). -/
def calc_r_and_t (c : TMConfig) (n0 : ℂ) (internals : List (ℂ × ℝ)) (nLast : ℂ) :
    ℂ × ℂ :=
  ((sMatrix c n0 internals nLast).m10 / (sMatrix c n0 internals nLast).m00,
   1 / (sMatrix c n0 internals nLast).m00)

/-- Cosine of the transmitted angle produced by
`snell(n_1, n_2, th)` of `HelperFunctions.py` followed by `np.cos`:
`cos (arcsin (n_1 * sin th / n_2))`.  With the principal complex branches of
`arcsin` and `sqrt` (the choice the helper's comments call for) this
composition equals `csqrt (1 - (n_1 * sin th / n_2)^2)`. -/
def snellCos (n1 n2 th : ℝ) : ℂ :=
  csqrt ((1 : ℂ) - ((n1 * Real.sin th / n2 : ℝ) : ℂ) ^ 2)

/-- `calc_reflectance_and_transmittance(correction=True)` of the primary
implementation: `R = |r|²`, `T = |t|² * (n_2/n_1) * (cos th_out / cos th)`
with `n_1 = n_list[0].real`, `n_2 = n_list[-1].real`.  The corrected
transmittance is complex-valued whenever `th_out` is (total internal
reflection), so `T` is returned in `ℂ`. -/
def calc_reflectance_and_transmittance (c : TMConfig) (th : ℝ) (n0 : ℂ)
    (internals : List (ℂ × ℝ)) (nLast : ℂ) : ℝ × ℂ :=
  (Complex.abs (calc_r_and_t c n0 internals nLast).1 ^ 2,
   ((Complex.abs (calc_r_and_t c n0 internals nLast).2 ^ 2 * (nLast.re / n0.re) : ℝ) : ℂ) *
     (snellCos n0.re nLast.re th / (Real.cos th : ℂ)))

/-- The energy flux carried by the amplitude pair `v = (a⁺, a⁻)` in a layer
of perpendicular wavevector `w`: `Re (w * (a⁺ - a⁻) * conj (a⁺ + a⁻))`.
For a propagating layer (`w` real) this is `w * (|a⁺|² - |a⁻|²)`; for an
evanescent layer (`w` purely imaginary) it is the tunnelling flux.  It is
the quantity the lossless transfer matrices conserve. -/
def flux (w : ℂ) (v : ℂ × ℂ) : ℝ :=
  (w * (v.1 - v.2) * (starRingEnd ℂ) (v.1 + v.2)).re

/-- The possible values of `xi` on a lossless layer away from the singular
point `n = n_11`: a positive real (propagating) or a positive multiple of
`i` (evanescent). -/
def IsXiPos (w : ℂ) : Prop :=
  (0 < w.re ∧ w.im = 0) ∨ (w.re = 0 ∧ 0 < w.im)

/-- Real-index structures in the theorems below are given by real data;
`peekR` is `peek` on the real view. -/
def peekR : List (ℝ × ℝ) → ℝ → ℝ
  | [], nLast => nLast
  | p :: _, _ => p.1

/-- The guided three-layer configuration used to separate the two
implementations: claddings `n = 4/5`, core `n = 5/3` of thickness 1,
`n_11 = 1` (strictly between the cladding and core indices, a genuine
guided probe), `s` polarisation, field `E`, `k_vac = 3π/8` (so that the
core phase thickness is exactly `π/2`). -/
def guidedDemoConfig : TMConfig :=
  ⟨Pol.s, FieldKind.E, 1, 3 * Real.pi / 8⟩

def radDemoConfig : TMConfig :=
  ⟨Pol.s, FieldKind.E, 0, Real.pi / 4⟩

/-- `round(x, 5)`: rounding to five decimal places, the post-processing the
root finder applies to every root (`eps = 1e-5`). -/
def pyround5 (x : ℝ) : ℝ := ((round (x * 100000) : ℤ) : ℝ) / 100000

/-- The `while f1 * f2 > 0.0` loop of `HelperFunctions.root_search`,
state-threaded (the probed function mutates the configuration object) and
fuel-indexed (the loop itself is unbounded in the source; every theorem
below holds for every fuel). -/
def rootSearchLoop {σ : Type} (f : ℝ → σ → ℝ × σ) (b dx : ℝ) :
    ℕ → ℝ → ℝ → ℝ → ℝ → σ → Option (ℝ × ℝ) × σ
  | 0, _, _, _, _, s => (none, s)
  | fuel + 1, x1, f1, x2, f2, s =>
      if 0 < f1 * f2 then
        if b ≤ x1 then (none, s)
        else
          rootSearchLoop f b dx fuel x2 f2 (x2 + dx) (f (x2 + dx) s).1
            (f (x2 + dx) s).2
      else (some (x1, x2), s)

/-- `HelperFunctions.root_search(f, a, b, dx)`: probe `f` at `a` and
`a + dx`, then step until a sign change or `x1 >= b`. -/
def root_search_st {σ : Type} (f : ℝ → σ → ℝ × σ) (a b dx : ℝ) (fuel : ℕ)
    (s : σ) : Option (ℝ × ℝ) × σ :=
  rootSearchLoop f b dx fuel a (f a s).1 (a + dx) (f (a + dx) (f a s).2).1
    (f (a + dx) (f a s).2).2

/-- `HelperFunctions.roots(f, a, b, eps)`: repeatedly bracket with
`root_search`, solve each bracket with `brentq`, skip exact-zero roots,
round the rest to five decimals, and continue from the bracket's right
end.  `brentq` is an oracle parameter `br` (the theorems below assume only
that it returns a point of the bracket and that it touches the state only
through calls of `f`); `fuel` bounds the unbounded `while 1` loop. -/
def roots_st {σ : Type} (f : ℝ → σ → ℝ × σ)
    (br : (ℝ → σ → ℝ × σ) → ℝ → ℝ → σ → ℝ × σ) (b dx : ℝ) (sfuel : ℕ) :
    ℕ → ℝ → σ → List ℝ × σ
  | 0, _, s => ([], s)
  | fuel + 1, a, s =>
      match root_search_st f a b dx sfuel s with
      | (none, s1) => ([], s1)
      | (some (x1, x2), s1) =>
          if (br f x1 x2 s1).1 = 0 then
            roots_st f br b dx sfuel fuel x2 (br f x1 x2 s1).2
          else
            (pyround5 (br f x1 x2 s1).1 ::
              (roots_st f br b dx sfuel fuel x2 (br f x1 x2 s1).2).1,
             (roots_st f br b dx sfuel fuel x2 (br f x1 x2 s1).2).2)

/-- The configuration object as the guided-mode scan sees it: the light
parameters (`TMConfig`, including the mutable `n_11`) together with the
structure (`n_list` split into entry index, internal layers with their
thicknesses, and exit index). -/

structure TMState where
  cfg : TMConfig
  n0 : ℂ
  internals : List (ℂ × ℝ)
  nLast : ℂ

/-- Overwrite the stored `n_11` (the `self.n_11 = n_11` assignment of
`calc_s11` / `_s11`). -/
def setN11 (s : TMState) (x : ℝ) : TMState :=
  ⟨⟨s.cfg.pol, s.cfg.fk, x, s.cfg.kVac⟩, s.n0, s.internals, s.nLast⟩

/-- `TransferMatrix.calc_s11(n_11)`: store `n_11` on the configuration,
then return the real part of `s_matrix()[0, 0]` together with the mutated
configuration. -/
def TM_calc_s11 (x : ℝ) (s : TMState) : ℝ × TMState :=
  ((sMatrix (setN11 s x).cfg s.n0 s.internals s.nLast).m00.re, setN11 s x)

/-- `Methods.TransferMatrix._s11(n_11)` (same body as the primary
implementation's `calc_s11`). -/
def MTM_s11 (x : ℝ) (s : TMState) : ℝ × TMState :=
  ((sMatrix (setN11 s x).cfg s.n0 s.internals s.nLast).m00.re, setN11 s x)

/-- `self.n_list.real` as a list. -/
def nReList (s : TMState) : List ℝ :=
  s.n0.re :: (s.internals.map fun p => p.1.re) ++ [s.nLast.re]

/-- `max(n)` over the real parts of the index list. -/
def maxRe (s : TMState) : ℝ := (nReList s).foldr max s.n0.re

/-- `min(n)` over the real parts of the index list. -/
def minRe (s : TMState) : ℝ := (nReList s).foldr min s.n0.re

/-- The lower end of the primary implementation's scan:
`1 * max(n[0], n[-1])`. -/
def TM_guided_scan_start (s : TMState) : ℝ := max s.n0.re s.nLast.re

/-- The lower end of the Methods implementation's scan: `n[0]`. -/
def MTM_guided_scan_start (s : TMState) : ℝ := s.n0.re

/-- `TransferMatrix.supports_guiding`: some internal layer index exceeds
both cladding indices. -/
def TM_supports_guiding (s : TMState) : Prop :=
  ∃ p ∈ s.internals, max s.n0.re s.nLast.re < p.1.re

instance (s : TMState) : Decidable (TM_supports_guiding s) :=
  inferInstanceAs (Decidable (∃ p ∈ s.internals, max s.n0.re s.nLast.re < p.1.re))

/-- The root scan performed by `TransferMatrix.calc_guided_modes`:
`roots(self.calc_s11, 1 * max(n[0], n[-1]), max(n))` with the default
`eps = 1e-5`. -/
def TM_guided_scan
    (br : (ℝ → TMState → ℝ × TMState) → ℝ → ℝ → TMState → ℝ × TMState)
    (sfuel fuel : ℕ) (s : TMState) : List ℝ × TMState :=
  roots_st TM_calc_s11 br (maxRe s) (1 / 100000) sfuel fuel
    (TM_guided_scan_start s) s

/-- The post-processing of `TransferMatrix.calc_guided_modes`: reverse the
ascending root list, delete entries with `n_11 - min(n) < 0.01`, and keep
`n_11` when `normalised` or multiply by `k_vac` otherwise. -/
def TM_postprocess (s : TMState) (normalised : Bool) (l : List ℝ) : List ℝ :=
  match normalised with
  | true => l.reverse.filter fun x => decide (¬ x - minRe s < 1 / 100)
  | false =>
      (l.reverse.filter fun x => decide (¬ x - minRe s < 1 / 100)).map
        fun x => x * s.cfg.kVac

/-- `TransferMatrix.calc_guided_modes(normalised)`: assert
`supports_guiding` (modelled as the `none` outcome with the state
untouched), scan, post-process, and return the array together with the
mutated configuration. -/
def TM_calc_guided_modes
    (br : (ℝ → TMState → ℝ × TMState) → ℝ → ℝ → TMState → ℝ × TMState)
    (sfuel fuel : ℕ) (normalised : Bool) (s : TMState) :
    Option (List ℝ) × TMState :=
  if TM_supports_guiding s then
    (some (TM_postprocess s normalised (TM_guided_scan br sfuel fuel s).1),
      (TM_guided_scan br sfuel fuel s).2)
  else (none, s)

/-- The root scan performed by `Methods.calc_guided_modes`:
`roots(self._s11, n[0], max(n))`. -/
def MTM_guided_scan
    (br : (ℝ → TMState → ℝ × TMState) → ℝ → ℝ → TMState → ℝ × TMState)
    (sfuel fuel : ℕ) (s : TMState) : List ℝ × TMState :=
  roots_st MTM_s11 br (maxRe s) (1 / 100000) sfuel fuel
    (MTM_guided_scan_start s) s

/-- The demonstration structure `n = [1, 3, 2]`, `d = [0, 1, 0]` used for
the scan-interval counterexample: the two cladding indices differ. -/
def demoScanState : TMState :=
  ⟨⟨Pol.s, FieldKind.E, 0, 1⟩, ((1 : ℝ) : ℂ), [(((3 : ℝ) : ℂ), (1 : ℝ))],
    ((2 : ℝ) : ℂ)⟩

/-- A concrete stand-in for the `brentq` oracle: the bracket midpoint,
touching the state exactly as a probe of the scanned function would. -/
def brMid : (ℝ → TMState → ℝ × TMState) → ℝ → ℝ → TMState → ℝ × TMState :=
  fun _ x1 x2 t => ((x1 + x2) / 2, setN11 t ((x1 + x2) / 2))

/-- The structure bookkeeping fields of the configuration object:
`d_list`, `n_list`, `d_cumulative = np.cumsum(d_list)`, and
`num_layers = np.size(d_list)`. -/
structure StructState where
  d_list : List ℝ
  n_list : List ℂ
  d_cumulative : List ℝ
  num_layers : ℕ

/-- `np.cumsum`, accumulator form: one running prefix sum per element. -/
def cumsum_aux (acc : ℝ) : List ℝ → List ℝ
  | [] => []
  | d :: rest => (acc + d) :: cumsum_aux (acc + d) rest

/-- `np.cumsum(d_list)`. -/
def cumsum (l : List ℝ) : List ℝ := cumsum_aux 0 l

/-- The shared tail of both `add_layer` bodies: append `d` to `d_list` and
`n` to `n_list`, then recompute `d_cumulative` and `num_layers`. -/
def appendLayer (s : StructState) (d : ℝ) (n : ℂ) : StructState :=
  ⟨s.d_list ++ [d], s.n_list ++ [n], cumsum (s.d_list ++ [d]),
    (s.d_list ++ [d]).length⟩

/-- `TransferMatrix.add_layer(d, n)`: guarded by `d >= 0` and, for the
first layer, by `n` being real; a failed assert is the `none` outcome. -/
def TM_add_layer (s : StructState) (d : ℝ) (n : ℂ) : Option StructState :=
  if 0 ≤ d ∧ (s.num_layers = 0 → n.im = 0) then some (appendLayer s d n)
  else none

/-- `Methods.add_layer(d, n)`: guarded by
`float(d).is_integer() or d == 0`. -/
def MTM_add_layer (s : StructState) (d : ℝ) (n : ℂ) : Option StructState :=
  if d = ((⌊d⌋ : ℤ) : ℝ) ∨ d = 0 then some (appendLayer s d n) else none

/-- `flip()` (both implementations): reverse `d_list` and `n_list` and
recompute `d_cumulative`; `num_layers` is left as it is. -/
def structFlip (s : StructState) : StructState :=
  ⟨s.d_list.reverse, s.n_list.reverse, cumsum s.d_list.reverse, s.num_layers⟩

/-- The structure-mutating operations of the bookkeeping claim. -/
inductive StructOp
  | addLayer (d : ℝ) (n : ℂ)
  | flipOp

/-- Run a sequence of structure mutations on the primary implementation;
a failed `add_layer` assert aborts the sequence. -/
def TM_run : StructState → List StructOp → Option StructState
  | s, [] => some s
  | s, StructOp.addLayer d n :: rest =>
      match TM_add_layer s d n with
      | none => none
      | some s1 => TM_run s1 rest
  | s, StructOp.flipOp :: rest => TM_run (structFlip s) rest

/-- Run a sequence of structure mutations on the Methods implementation. -/
def MTM_run : StructState → List StructOp → Option StructState
  | s, [] => some s
  | s, StructOp.addLayer d n :: rest =>
      match MTM_add_layer s d n with
      | none => none
      | some s1 => MTM_run s1 rest
  | s, StructOp.flipOp :: rest => MTM_run (structFlip s) rest

/-- The bookkeeping invariant of the claim: `d_cumulative` is the prefix
sums of `d_list`, `num_layers` is its length, and `d_list` and `n_list`
have equal length. -/
def StructInv (s : StructState) : Prop :=
  s.d_cumulative = cumsum s.d_list ∧ s.num_layers = s.d_list.length ∧
    s.d_list.length = s.n_list.length

/-- The freshly constructed configuration (`__init__`): empty structure. -/
def initStruct : StructState := ⟨[], [], [], 0⟩

theorem csqrt_ofReal_nonneg {x : ℝ} (hx : 0 ≤ x) :
    csqrt (x : ℂ) = (Real.sqrt x : ℂ) := by
  unfold csqrt
  rw [Complex.abs_ofReal, abs_of_nonneg hx, Complex.arg_ofReal_of_nonneg hx]
  simp

theorem csqrt_ofReal_neg {x : ℝ} (hx : x < 0) :
    csqrt (x : ℂ) = (Real.sqrt (-x) : ℂ) * Complex.I := by
  unfold csqrt
  rw [Complex.abs_ofReal, abs_of_neg hx, Complex.arg_ofReal_of_neg hx]
  congr 1
  rw [show Complex.I * (Real.pi : ℂ) / 2 = ((Real.pi / 2 : ℝ) : ℂ) * Complex.I by
    push_cast; ring]
  rw [Complex.exp_mul_I, ← Complex.ofReal_cos, ← Complex.ofReal_sin,
    Real.cos_pi_div_two, Real.sin_pi_div_two]
  simp

/-- A `csqrt` of a real number is real or purely imaginary; this is the only
fact about the branch the energy-conservation argument needs. -/
theorem csqrt_ofReal_re_or_im (x : ℝ) :
    (csqrt (x : ℂ)).im = 0 ∨ (csqrt (x : ℂ)).re = 0 := by
  rcases le_or_lt 0 x with hx | hx
  · left; rw [csqrt_ofReal_nonneg hx]; simp
  · right; rw [csqrt_ofReal_neg hx]; simp

theorem rtCoef_E {c : TMConfig} (hc : c.fk = FieldKind.E) (nj nk : ℂ) :
    rtCoef c nj nk = rtCoefE c nj nk := by
  cases c with
  | mk pol fk n11 kVac =>
      cases hc
      rfl

theorem rtCoefE_s {c : TMConfig} (hc : c.pol = Pol.s) (nj nk : ℂ) :
    rtCoefE c nj nk =
      ((xi c nj - xi c nk) / (xi c nj + xi c nk),
       (2 * xi c nj) / (xi c nj + xi c nk)) := by
  cases c with
  | mk pol fk n11 kVac =>
      cases hc
      rfl

theorem rtCoefE_p {c : TMConfig} (hc : c.pol = Pol.p) (nj nk : ℂ) :
    rtCoefE c nj nk =
      ((nk ^ 2 * xi c nj - nj ^ 2 * xi c nk) / (nk ^ 2 * xi c nj + nj ^ 2 * xi c nk),
       (2 * nj * nk * xi c nj) / (xi c nj * nk ^ 2 + xi c nk * nj ^ 2)) := by
  cases c with
  | mk pol fk n11 kVac =>
      cases hc
      rfl

theorem M2.mul_def (A B : M2) :
    A * B =
      ⟨A.m00 * B.m00 + A.m01 * B.m10, A.m00 * B.m01 + A.m01 * B.m11,
       A.m10 * B.m00 + A.m11 * B.m10, A.m10 * B.m01 + A.m11 * B.m11⟩ := rfl

theorem M2.mul_mulVec (A B : M2) (v : ℂ × ℂ) :
    (A * B).mulVec v = A.mulVec (B.mulVec v) := by
  simp only [M2.mulVec, M2.mul_def, Prod.mk.injEq]
  constructor <;> ring

/-- On a layer of real index the normalised perpendicular wavevector is the
principal square root of the real number `x² - n_11²`. -/
theorem xi_ofReal (c : TMConfig) (x : ℝ) :
    xi c (x : ℂ) = csqrt (((x ^ 2 - c.n11 ^ 2 : ℝ)) : ℂ) := by
  unfold xi
  push_cast
  ring_nf

/-- At normal incidence (`n_11 = 0`) the perpendicular wavevector of a layer
of positive real index `x` is `x` itself. -/
theorem xi_zero (c : TMConfig) (hc : c.n11 = 0) {x : ℝ} (hx : 0 ≤ x) :
    xi c (x : ℂ) = (x : ℂ) := by
  rw [xi_ofReal, hc]
  have h2 : (0 : ℝ) ≤ x ^ 2 - 0 ^ 2 := by nlinarith [sq_nonneg x]
  rw [csqrt_ofReal_nonneg h2]
  norm_num [Real.sqrt_sq hx]

/-- The system matrix of a two-layer structure is the single interface
matrix. -/
theorem sMatrix_two_layer (c : TMConfig) (n0 nLast : ℂ) :
    sMatrix c n0 [] nLast = iMat c n0 nLast := rfl

/-- For a two-layer structure `calc_r_and_t` reproduces the raw interface
coefficients whenever `t ≠ 0`. -/
theorem calc_r_and_t_single (c : TMConfig) (n0 nLast : ℂ)
    (ht : (rtCoef c n0 nLast).2 ≠ 0) :
    calc_r_and_t c n0 [] nLast = rtCoef c n0 nLast := by
  unfold calc_r_and_t
  rw [sMatrix_two_layer]
  unfold iMat
  simp only [Prod.ext_iff]
  constructor
  · field_simp
  · rw [one_div_one_div]

/-- The raw interface coefficients of a positive real-index interface at
normal incidence. -/
theorem rtCoef_normal (pol : Pol) (kv : ℝ) {n1 n2 : ℝ} (h1 : 0 < n1) (h2 : 0 < n2) :
    rtCoef ⟨pol, FieldKind.E, 0, kv⟩ (n1 : ℂ) (n2 : ℂ) =
      (match pol with
        | Pol.s => (((n1 : ℂ) - n2) / ((n1 : ℂ) + n2), 2 * n1 / ((n1 : ℂ) + n2))
        | Pol.p => (((n2 : ℂ) - n1) / ((n1 : ℂ) + n2), 2 * n1 / ((n1 : ℂ) + n2))) := by
  have hx1 : xi ⟨pol, FieldKind.E, 0, kv⟩ (n1 : ℂ) = (n1 : ℂ) := xi_zero _ rfl h1.le
  have hx2 : xi ⟨pol, FieldKind.E, 0, kv⟩ (n2 : ℂ) = (n2 : ℂ) := xi_zero _ rfl h2.le
  have hn1 : (n1 : ℂ) ≠ 0 := by exact_mod_cast h1.ne'
  have hn2 : (n2 : ℂ) ≠ 0 := by exact_mod_cast h2.ne'
  have hsumR : (0 : ℝ) < n1 + n2 := by linarith
  have hsum : (n1 : ℂ) + n2 ≠ 0 := by
    rw [show (n1 : ℂ) + n2 = ((n1 + n2 : ℝ) : ℂ) by push_cast; ring]
    exact_mod_cast hsumR.ne'
  rw [rtCoef_E rfl]
  cases pol
  case s =>
    rw [rtCoefE_s rfl, hx1, hx2]
  case p =>
    rw [rtCoefE_p rfl, hx1, hx2]
    have hden : (n2 : ℂ) ^ 2 * n1 + (n1 : ℂ) ^ 2 * n2 ≠ 0 := by
      have hfac : (n2 : ℂ) ^ 2 * n1 + (n1 : ℂ) ^ 2 * n2 = (n1 * n2) * (n1 + n2) := by
        ring
      rw [hfac]
      exact mul_ne_zero (mul_ne_zero hn1 hn2) hsum
    have hden' : (n1 : ℂ) * n2 ^ 2 + (n2 : ℂ) * n1 ^ 2 ≠ 0 := by
      have hfac : (n1 : ℂ) * n2 ^ 2 + (n2 : ℂ) * n1 ^ 2 = (n1 * n2) * (n1 + n2) := by
        ring
      rw [hfac]
      exact mul_ne_zero (mul_ne_zero hn1 hn2) hsum
    simp only [Prod.mk.injEq]
    constructor
    · field_simp
      ring
    · field_simp
      ring

/-- The transmission coefficient at a positive real-index interface at
normal incidence is nonzero. -/
theorem rtCoef_normal_t_ne_zero (pol : Pol) (kv : ℝ) {n1 n2 : ℝ}
    (h1 : 0 < n1) (h2 : 0 < n2) :
    (rtCoef ⟨pol, FieldKind.E, 0, kv⟩ (n1 : ℂ) (n2 : ℂ)).2 ≠ 0 := by
  rw [rtCoef_normal pol kv h1 h2]
  have hn1 : (n1 : ℂ) ≠ 0 := by exact_mod_cast h1.ne'
  have hsum : (n1 : ℂ) + n2 ≠ 0 := by
    rw [show (n1 : ℂ) + n2 = ((n1 + n2 : ℝ) : ℂ) by push_cast; ring]
    have : (0 : ℝ) < n1 + n2 := by linarith
    exact_mod_cast this.ne'
  cases pol
  · exact div_ne_zero (by simpa using hn1) hsum
  · exact div_ne_zero (by simpa using hn1) hsum

/-- C2, counterexample.  For the two-layer structure `n₁ = 1`, `n₂ = 2` at
normal incidence with `p` polarisation, `calc_r_and_t` returns
`r = 1/3 ≠ (n₁-n₂)/(n₁+n₂) = -1/3`: the claimed closed form fails for `p`
polarisation (the code's `r_p` uses the convention in which the E field
flips sign on reflection). -/
theorem C2_counterexample :
    (calc_r_and_t ⟨Pol.p, FieldKind.E, 0, 1⟩ ((1 : ℝ) : ℂ) [] ((2 : ℝ) : ℂ)).1 ≠
      ((((1 : ℝ) : ℂ) - ((2 : ℝ) : ℂ)) / (((1 : ℝ) : ℂ) + ((2 : ℝ) : ℂ))) := by
  rw [calc_r_and_t_single _ _ _
      (rtCoef_normal_t_ne_zero Pol.p 1 one_pos two_pos),
    rtCoef_normal Pol.p 1 one_pos two_pos]
  norm_num

/-- C2, amended.  For every two-layer structure of positive real entry and
exit indices at normal incidence (field `E`), `calc_r_and_t` returns the
closed-form Fresnel coefficients; for `s` polarisation
`r = (n₁-n₂)/(n₁+n₂)` as claimed, for `p` polarisation the sign of `r` is
opposite, `r = (n₂-n₁)/(n₁+n₂)`, and `t = 2n₁/(n₁+n₂)` for both. -/
theorem C2_fresnel_normal_incidence (n1 n2 kv : ℝ) (h1 : 0 < n1) (h2 : 0 < n2) :
    calc_r_and_t ⟨Pol.s, FieldKind.E, 0, kv⟩ (n1 : ℂ) [] (n2 : ℂ) =
        (((n1 : ℂ) - n2) / ((n1 : ℂ) + n2), 2 * n1 / ((n1 : ℂ) + n2)) ∧
      calc_r_and_t ⟨Pol.p, FieldKind.E, 0, kv⟩ (n1 : ℂ) [] (n2 : ℂ) =
        (((n2 : ℂ) - n1) / ((n1 : ℂ) + n2), 2 * n1 / ((n1 : ℂ) + n2)) := by
  constructor
  · rw [calc_r_and_t_single _ _ _ (rtCoef_normal_t_ne_zero Pol.s kv h1 h2),
      rtCoef_normal Pol.s kv h1 h2]
  · rw [calc_r_and_t_single _ _ _ (rtCoef_normal_t_ne_zero Pol.p kv h1 h2),
      rtCoef_normal Pol.p kv h1 h2]

theorem IsXiPos.ne_zero {w : ℂ} (h : IsXiPos w) : w ≠ 0 := by
  intro hw
  subst hw
  rcases h with ⟨h1, _⟩ | ⟨_, h2⟩
  · simp at h1
  · simp at h2

theorem IsXiPos.add_ne_zero {a b : ℂ} (ha : IsXiPos a) (hb : IsXiPos b) :
    a + b ≠ 0 := by
  intro hab
  rw [Complex.ext_iff] at hab
  simp only [Complex.add_re, Complex.add_im, Complex.zero_re, Complex.zero_im] at hab
  rcases ha with ⟨h1, h2⟩ | ⟨h1, h2⟩ <;> rcases hb with ⟨h3, h4⟩ | ⟨h3, h4⟩ <;>
    obtain ⟨hre, him⟩ := hab <;> linarith

theorem IsXiPos.ofReal_mul {w : ℂ} {r : ℝ} (hr : 0 < r) (h : IsXiPos w) :
    IsXiPos ((r : ℂ) * w) := by
  have hre : ((r : ℂ) * w).re = r * w.re := by
    simp [Complex.mul_re]
  have him : ((r : ℂ) * w).im = r * w.im := by
    simp [Complex.mul_im]
  rcases h with ⟨h1, h2⟩ | ⟨h1, h2⟩
  · exact Or.inl ⟨by rw [hre]; positivity, by rw [him, h2, mul_zero]⟩
  · exact Or.inr ⟨by rw [hre, h1, mul_zero], by rw [him]; positivity⟩

/-- `xi` of a positive real layer index is real-or-imaginary positive
whenever the layer index does not coincide with `n_11`. -/
theorem xi_isXiPos (c : TMConfig) {x : ℝ} (hx : 0 < x) (h11 : 0 ≤ c.n11)
    (hne : x ≠ c.n11) : IsXiPos (xi c (x : ℂ)) := by
  rw [xi_ofReal]
  rcases lt_trichotomy (x ^ 2 - c.n11 ^ 2) 0 with h | h | h
  · rw [csqrt_ofReal_neg h]
    refine Or.inr ⟨?_, ?_⟩
    · simp
    · simp only [Complex.mul_im, Complex.ofReal_re, Complex.I_im, Complex.ofReal_im,
        Complex.I_re, mul_one, mul_zero, add_zero]
      have : 0 < c.n11 ^ 2 - x ^ 2 := by linarith
      have hlt : 0 < -(x ^ 2 - c.n11 ^ 2) := by linarith
      exact Real.sqrt_pos.mpr hlt
  · exfalso
    have hxx : (x - c.n11) * (x + c.n11) = 0 := by nlinarith
    rcases mul_eq_zero.mp hxx with h' | h'
    · exact hne (by linarith)
    · linarith
  · rw [csqrt_ofReal_nonneg h.le]
    refine Or.inl ⟨?_, by simp⟩
    simp only [Complex.ofReal_re]
    exact Real.sqrt_pos.mpr h

/-- Abstract interface conservation: a matrix of the shape
`(1/t) * [[1, r], [r, 1]]` carries the flux form of weight `ξk` to the flux
form of weight `ξj` whenever `ξj * (1 - r) * (1 + conj r) = ξk * t * conj t`. -/
theorem flux_interface_general (ξj ξk r t : ℂ) (ht : t ≠ 0)
    (key : ξj * (1 - r) * (1 + (starRingEnd ℂ) r) = ξk * (t * (starRingEnd ℂ) t))
    (v : ℂ × ℂ) :
    flux ξj ((M2.mk (1 / t) (r / t) (r / t) (1 / t)).mulVec v) = flux ξk v := by
  have htc : (starRingEnd ℂ) t ≠ 0 := by
    rw [starRingEnd_apply]
    exact star_ne_zero.mpr ht
  simp only [flux, M2.mulVec]
  congr 1
  have ha : (1 / t * v.1 + r / t * v.2) - (r / t * v.1 + 1 / t * v.2) =
      (1 - r) * (v.1 - v.2) / t := by
    field_simp
    ring
  have hb : (1 / t * v.1 + r / t * v.2) + (r / t * v.1 + 1 / t * v.2) =
      (1 + r) * (v.1 + v.2) / t := by
    field_simp
    ring
  rw [ha, hb]
  simp only [map_div₀, map_mul, map_add, map_one]
  have hcl : ξj * ((1 - r) * (v.1 - v.2) / t) *
      ((1 + (starRingEnd ℂ) r) * ((starRingEnd ℂ) v.1 + (starRingEnd ℂ) v.2) /
        (starRingEnd ℂ) t) =
      (ξj * ((1 - r) * (v.1 - v.2)) *
        ((1 + (starRingEnd ℂ) r) * ((starRingEnd ℂ) v.1 + (starRingEnd ℂ) v.2))) /
        (t * (starRingEnd ℂ) t) := by
    field_simp
  rw [hcl, div_eq_iff (mul_ne_zero ht htc)]
  linear_combination
    ((v.1 - v.2) * ((starRingEnd ℂ) v.1 + (starRingEnd ℂ) v.2)) * key

/-- Flux is conserved across a lossless interface: the interference matrix
between two layers of positive real indices (field `E`, either
polarisation) maps the flux form of the far layer to that of the near
layer.  This holds uniformly for propagating and evanescent `xi`. -/
theorem flux_iMat (pol : Pol) (n11 kv : ℝ) {x y : ℝ}
    (hx : 0 < x) (hy : 0 < y)
    (hxj : IsXiPos (xi ⟨pol, FieldKind.E, n11, kv⟩ (x : ℂ)))
    (hxk : IsXiPos (xi ⟨pol, FieldKind.E, n11, kv⟩ (y : ℂ))) (v : ℂ × ℂ) :
    flux (xi ⟨pol, FieldKind.E, n11, kv⟩ (x : ℂ))
        ((iMat ⟨pol, FieldKind.E, n11, kv⟩ (x : ℂ) (y : ℂ)).mulVec v) =
      flux (xi ⟨pol, FieldKind.E, n11, kv⟩ (y : ℂ)) v := by
  set ξj := xi ⟨pol, FieldKind.E, n11, kv⟩ (x : ℂ) with hξj
  set ξk := xi ⟨pol, FieldKind.E, n11, kv⟩ (y : ℂ) with hξk
  have hξjne : ξj ≠ 0 := hxj.ne_zero
  have hξkne : ξk ≠ 0 := hxk.ne_zero
  have hconjξj : (starRingEnd ℂ) ξj ≠ 0 := by
    rw [starRingEnd_apply]
    exact star_ne_zero.mpr hξjne
  cases pol
  case s =>
    have hden : ξj + ξk ≠ 0 := hxj.add_ne_zero hxk
    have hdenc : (starRingEnd ℂ) ξj + (starRingEnd ℂ) ξk ≠ 0 := by
      rw [← map_add, starRingEnd_apply]
      exact star_ne_zero.mpr hden
    have hrt : rtCoef ⟨Pol.s, FieldKind.E, n11, kv⟩ (x : ℂ) (y : ℂ) =
        ((ξj - ξk) / (ξj + ξk), (2 * ξj) / (ξj + ξk)) := by
      rw [rtCoef_E rfl, rtCoefE_s rfl, hξj, hξk]
    have ht : (2 * ξj) / (ξj + ξk) ≠ 0 :=
      div_ne_zero (mul_ne_zero two_ne_zero hξjne) hden
    have key : ξj * (1 - (ξj - ξk) / (ξj + ξk)) *
          (1 + (starRingEnd ℂ) ((ξj - ξk) / (ξj + ξk))) =
        ξk * ((2 * ξj) / (ξj + ξk) * (starRingEnd ℂ) ((2 * ξj) / (ξj + ξk))) := by
      simp only [map_div₀, map_sub, map_add, map_mul, map_ofNat]
      field_simp
      ring
    have := flux_interface_general ξj ξk ((ξj - ξk) / (ξj + ξk))
      ((2 * ξj) / (ξj + ξk)) ht key v
    rw [show iMat ⟨Pol.s, FieldKind.E, n11, kv⟩ (x : ℂ) (y : ℂ) =
        M2.mk (1 / ((2 * ξj) / (ξj + ξk)))
          (((ξj - ξk) / (ξj + ξk)) / ((2 * ξj) / (ξj + ξk)))
          (((ξj - ξk) / (ξj + ξk)) / ((2 * ξj) / (ξj + ξk)))
          (1 / ((2 * ξj) / (ξj + ξk))) by
      simp only [iMat, hrt]]
    exact this
  case p =>
    have hyx : (0 : ℝ) < y ^ 2 := by positivity
    have hxx : (0 : ℝ) < x ^ 2 := by positivity
    have hsq1 : ((y : ℂ)) ^ 2 * ξj = ((y ^ 2 : ℝ) : ℂ) * ξj := by push_cast; ring
    have hsq2 : ((x : ℂ)) ^ 2 * ξk = ((x ^ 2 : ℝ) : ℂ) * ξk := by push_cast; ring
    have hden : ((y : ℂ)) ^ 2 * ξj + ((x : ℂ)) ^ 2 * ξk ≠ 0 := by
      rw [hsq1, hsq2]
      exact (hxj.ofReal_mul hyx).add_ne_zero (hxk.ofReal_mul hxx)
    have hden' : ξj * ((y : ℂ)) ^ 2 + ξk * ((x : ℂ)) ^ 2 ≠ 0 := by
      rw [show ξj * ((y : ℂ)) ^ 2 + ξk * ((x : ℂ)) ^ 2 =
        ((y : ℂ)) ^ 2 * ξj + ((x : ℂ)) ^ 2 * ξk by ring]
      exact hden
    have hdenc : ((y : ℂ)) ^ 2 * (starRingEnd ℂ) ξj +
        ((x : ℂ)) ^ 2 * (starRingEnd ℂ) ξk ≠ 0 := by
      have heq : ((y : ℂ)) ^ 2 * (starRingEnd ℂ) ξj + ((x : ℂ)) ^ 2 * (starRingEnd ℂ) ξk =
          (starRingEnd ℂ) (((y : ℂ)) ^ 2 * ξj + ((x : ℂ)) ^ 2 * ξk) := by
        simp only [map_add, map_mul, map_pow, Complex.conj_ofReal]
      rw [heq, starRingEnd_apply]
      exact star_ne_zero.mpr hden
    have hdenc' : (starRingEnd ℂ) ξj * ((y : ℂ)) ^ 2 +
        (starRingEnd ℂ) ξk * ((x : ℂ)) ^ 2 ≠ 0 := by
      rw [show (starRingEnd ℂ) ξj * ((y : ℂ)) ^ 2 + (starRingEnd ℂ) ξk * ((x : ℂ)) ^ 2 =
        ((y : ℂ)) ^ 2 * (starRingEnd ℂ) ξj + ((x : ℂ)) ^ 2 * (starRingEnd ℂ) ξk by ring]
      exact hdenc
    have hxc : (x : ℂ) ≠ 0 := by exact_mod_cast hx.ne'
    have hyc : (y : ℂ) ≠ 0 := by exact_mod_cast hy.ne'
    have hrt : rtCoef ⟨Pol.p, FieldKind.E, n11, kv⟩ (x : ℂ) (y : ℂ) =
        (((y : ℂ) ^ 2 * ξj - (x : ℂ) ^ 2 * ξk) / ((y : ℂ) ^ 2 * ξj + (x : ℂ) ^ 2 * ξk),
         (2 * (x : ℂ) * (y : ℂ) * ξj) / (ξj * (y : ℂ) ^ 2 + ξk * (x : ℂ) ^ 2)) := by
      rw [rtCoef_E rfl, rtCoefE_p rfl, hξj, hξk]
    have ht : (2 * (x : ℂ) * (y : ℂ) * ξj) / (ξj * (y : ℂ) ^ 2 + ξk * (x : ℂ) ^ 2) ≠ 0 :=
      div_ne_zero
        (mul_ne_zero (mul_ne_zero (mul_ne_zero two_ne_zero hxc) hyc) hξjne) hden'
    have key : ξj * (1 - ((y : ℂ) ^ 2 * ξj - (x : ℂ) ^ 2 * ξk) /
            ((y : ℂ) ^ 2 * ξj + (x : ℂ) ^ 2 * ξk)) *
          (1 + (starRingEnd ℂ) (((y : ℂ) ^ 2 * ξj - (x : ℂ) ^ 2 * ξk) /
            ((y : ℂ) ^ 2 * ξj + (x : ℂ) ^ 2 * ξk))) =
        ξk * ((2 * (x : ℂ) * (y : ℂ) * ξj) / (ξj * (y : ℂ) ^ 2 + ξk * (x : ℂ) ^ 2) *
          (starRingEnd ℂ) ((2 * (x : ℂ) * (y : ℂ) * ξj) /
            (ξj * (y : ℂ) ^ 2 + ξk * (x : ℂ) ^ 2))) := by
      simp only [map_div₀, map_sub, map_add, map_mul, map_pow, map_ofNat,
        Complex.conj_ofReal]
      field_simp [hden, hden', hdenc, hdenc']
      ring
    have := flux_interface_general ξj ξk
      (((y : ℂ) ^ 2 * ξj - (x : ℂ) ^ 2 * ξk) / ((y : ℂ) ^ 2 * ξj + (x : ℂ) ^ 2 * ξk))
      ((2 * (x : ℂ) * (y : ℂ) * ξj) / (ξj * (y : ℂ) ^ 2 + ξk * (x : ℂ) ^ 2)) ht key v
    rw [show iMat ⟨Pol.p, FieldKind.E, n11, kv⟩ (x : ℂ) (y : ℂ) =
        M2.mk
          (1 / ((2 * (x : ℂ) * (y : ℂ) * ξj) / (ξj * (y : ℂ) ^ 2 + ξk * (x : ℂ) ^ 2)))
          ((((y : ℂ) ^ 2 * ξj - (x : ℂ) ^ 2 * ξk) / ((y : ℂ) ^ 2 * ξj + (x : ℂ) ^ 2 * ξk)) /
            ((2 * (x : ℂ) * (y : ℂ) * ξj) / (ξj * (y : ℂ) ^ 2 + ξk * (x : ℂ) ^ 2)))
          ((((y : ℂ) ^ 2 * ξj - (x : ℂ) ^ 2 * ξk) / ((y : ℂ) ^ 2 * ξj + (x : ℂ) ^ 2 * ξk)) /
            ((2 * (x : ℂ) * (y : ℂ) * ξj) / (ξj * (y : ℂ) ^ 2 + ξk * (x : ℂ) ^ 2)))
          (1 / ((2 * (x : ℂ) * (y : ℂ) * ξj) / (ξj * (y : ℂ) ^ 2 + ξk * (x : ℂ) ^ 2))) by
      simp only [iMat, hrt]]
    exact this

/-- A diagonal matrix `diag(E1, E2)` with `E1 * E2 = 1`, `conj E1 = E2`
preserves the flux form of a real weight (propagating layer). -/
theorem flux_diag_prop (ξ E1 E2 : ℂ) (hE : E1 * E2 = 1)
    (hcξ : (starRingEnd ℂ) ξ = ξ) (hcE : (starRingEnd ℂ) E1 = E2) (v : ℂ × ℂ) :
    flux ξ ((M2.mk E1 0 0 E2).mulVec v) = flux ξ v := by
  have hcE2 : (starRingEnd ℂ) E2 = E1 := by
    rw [← hcE, Complex.conj_conj]
  simp only [flux, M2.mulVec, zero_mul, mul_zero, add_zero, zero_add]
  have hZ : (starRingEnd ℂ) (ξ * (E1 ^ 2 - 1) * v.1 * (starRingEnd ℂ) v.2) =
      ξ * (E2 ^ 2 - 1) * v.2 * (starRingEnd ℂ) v.1 := by
    simp only [map_mul, map_sub, map_pow, map_one, hcξ, hcE, Complex.conj_conj]
    ring
  have hdiff : ξ * (E1 * v.1 - E2 * v.2) * (starRingEnd ℂ) (E1 * v.1 + E2 * v.2) -
      ξ * (v.1 - v.2) * (starRingEnd ℂ) (v.1 + v.2) =
      ξ * (E1 ^ 2 - 1) * v.1 * (starRingEnd ℂ) v.2 -
        (starRingEnd ℂ) (ξ * (E1 ^ 2 - 1) * v.1 * (starRingEnd ℂ) v.2) := by
    rw [hZ]
    simp only [map_add, map_mul, hcE, hcE2]
    linear_combination
      (ξ * (v.1 * (starRingEnd ℂ) v.1 - v.2 * (starRingEnd ℂ) v.2)) * hE
  have hre := congrArg Complex.re hdiff
  simp only [Complex.sub_re, Complex.conj_re] at hre
  linarith [hre]

/-- A diagonal matrix `diag(E1, E2)` with real entries and `E1 * E2 = 1`
preserves the flux form of a purely imaginary weight (evanescent layer). -/
theorem flux_diag_evan (ξ E1 E2 : ℂ) (hE : E1 * E2 = 1)
    (hcξ : (starRingEnd ℂ) ξ = -ξ) (hcE1 : (starRingEnd ℂ) E1 = E1)
    (hcE2 : (starRingEnd ℂ) E2 = E2) (v : ℂ × ℂ) :
    flux ξ ((M2.mk E1 0 0 E2).mulVec v) = flux ξ v := by
  simp only [flux, M2.mulVec, zero_mul, mul_zero, add_zero, zero_add]
  have h1 : (starRingEnd ℂ) (ξ * (E1 ^ 2 - 1) * v.1 * (starRingEnd ℂ) v.1) =
      -(ξ * (E1 ^ 2 - 1) * v.1 * (starRingEnd ℂ) v.1) := by
    simp only [map_mul, map_sub, map_pow, map_one, hcξ, hcE1, Complex.conj_conj]
    ring
  have h2 : (starRingEnd ℂ) (ξ * (E2 ^ 2 - 1) * v.2 * (starRingEnd ℂ) v.2) =
      -(ξ * (E2 ^ 2 - 1) * v.2 * (starRingEnd ℂ) v.2) := by
    simp only [map_mul, map_sub, map_pow, map_one, hcξ, hcE2, Complex.conj_conj]
    ring
  have hdiff : ξ * (E1 * v.1 - E2 * v.2) * (starRingEnd ℂ) (E1 * v.1 + E2 * v.2) -
      ξ * (v.1 - v.2) * (starRingEnd ℂ) (v.1 + v.2) =
      ξ * (E1 ^ 2 - 1) * v.1 * (starRingEnd ℂ) v.1 -
        ξ * (E2 ^ 2 - 1) * v.2 * (starRingEnd ℂ) v.2 := by
    simp only [map_add, map_mul, hcE1, hcE2]
    linear_combination
      (ξ * (v.1 * (starRingEnd ℂ) v.2 - v.2 * (starRingEnd ℂ) v.1)) * hE
  have hre1 : (ξ * (E1 ^ 2 - 1) * v.1 * (starRingEnd ℂ) v.1).re = 0 := by
    have := congrArg Complex.re h1
    simp only [Complex.conj_re, Complex.neg_re] at this
    linarith
  have hre2 : (ξ * (E2 ^ 2 - 1) * v.2 * (starRingEnd ℂ) v.2).re = 0 := by
    have := congrArg Complex.re h2
    simp only [Complex.conj_re, Complex.neg_re] at this
    linarith
  have hre := congrArg Complex.re hdiff
  simp only [Complex.sub_re] at hre
  linarith [hre]

/-- Flux is conserved by the propagation matrix of any lossless layer,
propagating (oscillatory phases) or evanescent (real growth/decay). -/
theorem flux_lMat (c : TMConfig) (x dj : ℝ) (v : ℂ × ℂ)
    (hcase : (xi c (x : ℂ)).im = 0 ∨ (xi c (x : ℂ)).re = 0) :
    flux (xi c (x : ℂ)) ((lMat c (x : ℂ) dj).mulVec v) = flux (xi c (x : ℂ)) v := by
  set ξ := xi c (x : ℂ) with hξ
  have hL : lMat c (x : ℂ) dj =
      M2.mk (Complex.exp (-Complex.I * (ξ * (c.kVac : ℂ)) * (dj : ℂ))) 0 0
        (Complex.exp (Complex.I * (ξ * (c.kVac : ℂ)) * (dj : ℂ))) := rfl
  rw [hL]
  have hE : Complex.exp (-Complex.I * (ξ * (c.kVac : ℂ)) * (dj : ℂ)) *
      Complex.exp (Complex.I * (ξ * (c.kVac : ℂ)) * (dj : ℂ)) = 1 := by
    rw [← Complex.exp_add,
      show -Complex.I * (ξ * (c.kVac : ℂ)) * (dj : ℂ) +
        Complex.I * (ξ * (c.kVac : ℂ)) * (dj : ℂ) = 0 by ring,
      Complex.exp_zero]
  rcases hcase with him | hre
  · have hcξ : (starRingEnd ℂ) ξ = ξ := Complex.conj_eq_iff_im.mpr him
    have hcE : (starRingEnd ℂ) (Complex.exp (-Complex.I * (ξ * (c.kVac : ℂ)) * (dj : ℂ))) =
        Complex.exp (Complex.I * (ξ * (c.kVac : ℂ)) * (dj : ℂ)) := by
      rw [← Complex.exp_conj]
      congr 1
      simp only [map_mul, map_neg, Complex.conj_I, Complex.conj_ofReal, hcξ]
      ring
    exact flux_diag_prop ξ _ _ hE hcξ hcE v
  · have hξI : ξ = (ξ.im : ℂ) * Complex.I := by
      apply Complex.ext <;> simp [hre]
    have hcξ : (starRingEnd ℂ) ξ = -ξ := by
      rw [hξI]
      simp only [map_mul, Complex.conj_ofReal, Complex.conj_I]
      ring
    have hcE1 : (starRingEnd ℂ) (Complex.exp (-Complex.I * (ξ * (c.kVac : ℂ)) * (dj : ℂ))) =
        Complex.exp (-Complex.I * (ξ * (c.kVac : ℂ)) * (dj : ℂ)) := by
      rw [← Complex.exp_conj]
      congr 1
      simp only [map_mul, map_neg, Complex.conj_I, Complex.conj_ofReal, hcξ]
      ring
    have hcE2 : (starRingEnd ℂ) (Complex.exp (Complex.I * (ξ * (c.kVac : ℂ)) * (dj : ℂ))) =
        Complex.exp (Complex.I * (ξ * (c.kVac : ℂ)) * (dj : ℂ)) := by
      rw [← Complex.exp_conj]
      congr 1
      simp only [map_mul, map_neg, Complex.conj_I, Complex.conj_ofReal, hcξ]
      ring
    exact flux_diag_evan ξ _ _ hE hcξ hcE1 hcE2 v

theorem peek_map (l : List (ℝ × ℝ)) (nL : ℝ) :
    peek (l.map fun p => ((p.1 : ℂ), p.2)) ((nL : ℝ) : ℂ) = ((peekR l nL : ℝ) : ℂ) := by
  cases l <;> rfl

theorem IsXiPos.im_or_re {w : ℂ} (h : IsXiPos w) : w.im = 0 ∨ w.re = 0 := by
  rcases h with ⟨_, h2⟩ | ⟨h1, _⟩
  · exact Or.inl h2
  · exact Or.inr h1

theorem peekR_props (c : TMConfig) (l : List (ℝ × ℝ)) (nLast : ℝ)
    (hall : ∀ p ∈ l, 0 < p.1 ∧ IsXiPos (xi c ((p.1 : ℝ) : ℂ)))
    (hlast : 0 < nLast ∧ IsXiPos (xi c ((nLast : ℝ) : ℂ))) :
    0 < peekR l nLast ∧ IsXiPos (xi c ((peekR l nLast : ℝ) : ℂ)) := by
  cases l with
  | nil => exact hlast
  | cons p rest => exact hall p (List.mem_cons_self p rest)

/-- The flux form of a real weight is `ρ * (|a|² - |b|²)`. -/
theorem flux_ofReal (ρ : ℝ) (a b : ℂ) :
    flux ((ρ : ℝ) : ℂ) (a, b) = ρ * (Complex.normSq a - Complex.normSq b) := by
  simp only [flux]
  have hZ : (starRingEnd ℂ) (((ρ : ℝ) : ℂ) * (a * (starRingEnd ℂ) b)) =
      ((ρ : ℝ) : ℂ) * (b * (starRingEnd ℂ) a) := by
    simp only [map_mul, Complex.conj_ofReal, Complex.conj_conj]
    ring
  have hexp : ((ρ : ℝ) : ℂ) * (a - b) * (starRingEnd ℂ) (a + b) =
      ((ρ : ℝ) : ℂ) * (((Complex.normSq a : ℝ) : ℂ) - ((Complex.normSq b : ℝ) : ℂ)) +
        (((ρ : ℝ) : ℂ) * (a * (starRingEnd ℂ) b) -
          (starRingEnd ℂ) (((ρ : ℝ) : ℂ) * (a * (starRingEnd ℂ) b))) := by
    rw [hZ, map_add, ← Complex.mul_conj, ← Complex.mul_conj]
    ring
  rw [hexp, ← Complex.ofReal_sub, ← Complex.ofReal_mul]
  simp only [Complex.add_re, Complex.sub_re, Complex.conj_re, Complex.ofReal_re]
  ring

/-- Flux conservation through the chained product of `s_matrix`: the loop of
`sGo` carries the flux form of the final layer back to the entry layer. -/
theorem flux_sGo (pol : Pol) (n11 kv nLast : ℝ)
    (hlast : 0 < nLast ∧ IsXiPos (xi ⟨pol, FieldKind.E, n11, kv⟩ ((nLast : ℝ) : ℂ)))
    (l : List (ℝ × ℝ)) :
    ∀ (hall : ∀ p ∈ l, 0 < p.1 ∧ IsXiPos (xi ⟨pol, FieldKind.E, n11, kv⟩ ((p.1 : ℝ) : ℂ)))
      (x0 : ℝ) (acc : M2)
      (hacc : ∀ w, flux (xi ⟨pol, FieldKind.E, n11, kv⟩ ((x0 : ℝ) : ℂ)) (acc.mulVec w) =
        flux (xi ⟨pol, FieldKind.E, n11, kv⟩ ((peekR l nLast : ℝ) : ℂ)) w)
      (v : ℂ × ℂ),
      flux (xi ⟨pol, FieldKind.E, n11, kv⟩ ((x0 : ℝ) : ℂ))
        ((sGo ⟨pol, FieldKind.E, n11, kv⟩ acc (l.map fun p => ((p.1 : ℂ), p.2))
          ((nLast : ℝ) : ℂ)).mulVec v) =
      flux (xi ⟨pol, FieldKind.E, n11, kv⟩ ((nLast : ℝ) : ℂ)) v := by
  induction l with
  | nil =>
      intro hall x0 acc hacc v
      exact hacc v
  | cons p rest ih =>
      intro hall x0 acc hacc v
      have hp := hall p (List.mem_cons_self p rest)
      have hrest : ∀ q ∈ rest, 0 < q.1 ∧
          IsXiPos (xi ⟨pol, FieldKind.E, n11, kv⟩ ((q.1 : ℝ) : ℂ)) :=
        fun q hq => hall q (List.mem_cons_of_mem p hq)
      have hpeek := peekR_props ⟨pol, FieldKind.E, n11, kv⟩ rest nLast hrest hlast
      show flux _ ((sGo ⟨pol, FieldKind.E, n11, kv⟩
          (acc * lMat ⟨pol, FieldKind.E, n11, kv⟩ ((p.1 : ℝ) : ℂ) p.2 *
            iMat ⟨pol, FieldKind.E, n11, kv⟩ ((p.1 : ℝ) : ℂ)
              (peek (rest.map fun p => ((p.1 : ℂ), p.2)) ((nLast : ℝ) : ℂ)))
          (rest.map fun p => ((p.1 : ℂ), p.2)) ((nLast : ℝ) : ℂ)).mulVec v) = _
      rw [peek_map rest nLast]
      refine ih hrest x0 _ ?_ v
      intro w
      rw [M2.mul_mulVec, M2.mul_mulVec]
      have h1 := hacc ((lMat ⟨pol, FieldKind.E, n11, kv⟩ ((p.1 : ℝ) : ℂ) p.2).mulVec
        ((iMat ⟨pol, FieldKind.E, n11, kv⟩ ((p.1 : ℝ) : ℂ)
          ((peekR rest nLast : ℝ) : ℂ)).mulVec w))
      rw [h1]
      have h2 := flux_lMat ⟨pol, FieldKind.E, n11, kv⟩ p.1 p.2
        ((iMat ⟨pol, FieldKind.E, n11, kv⟩ ((p.1 : ℝ) : ℂ)
          ((peekR rest nLast : ℝ) : ℂ)).mulVec w) hp.2.im_or_re
      calc flux (xi ⟨pol, FieldKind.E, n11, kv⟩ ((peekR (p :: rest) nLast : ℝ) : ℂ))
            ((lMat ⟨pol, FieldKind.E, n11, kv⟩ ((p.1 : ℝ) : ℂ) p.2).mulVec
              ((iMat ⟨pol, FieldKind.E, n11, kv⟩ ((p.1 : ℝ) : ℂ)
                ((peekR rest nLast : ℝ) : ℂ)).mulVec w)) =
          flux (xi ⟨pol, FieldKind.E, n11, kv⟩ ((p.1 : ℝ) : ℂ))
            ((iMat ⟨pol, FieldKind.E, n11, kv⟩ ((p.1 : ℝ) : ℂ)
              ((peekR rest nLast : ℝ) : ℂ)).mulVec w) := h2
        _ = flux (xi ⟨pol, FieldKind.E, n11, kv⟩ ((peekR rest nLast : ℝ) : ℂ)) w :=
          flux_iMat pol n11 kv hp.1 hpeek.1 hp.2 hpeek.2 w

/-- Flux conservation for the full system matrix of a lossless structure. -/
theorem flux_sMatrix (pol : Pol) (n11 kv x0 nLast : ℝ) (l : List (ℝ × ℝ))
    (h0 : 0 < x0 ∧ IsXiPos (xi ⟨pol, FieldKind.E, n11, kv⟩ ((x0 : ℝ) : ℂ)))
    (hlast : 0 < nLast ∧ IsXiPos (xi ⟨pol, FieldKind.E, n11, kv⟩ ((nLast : ℝ) : ℂ)))
    (hall : ∀ p ∈ l, 0 < p.1 ∧ IsXiPos (xi ⟨pol, FieldKind.E, n11, kv⟩ ((p.1 : ℝ) : ℂ)))
    (v : ℂ × ℂ) :
    flux (xi ⟨pol, FieldKind.E, n11, kv⟩ ((x0 : ℝ) : ℂ))
        ((sMatrix ⟨pol, FieldKind.E, n11, kv⟩ ((x0 : ℝ) : ℂ)
          (l.map fun p => ((p.1 : ℂ), p.2)) ((nLast : ℝ) : ℂ)).mulVec v) =
      flux (xi ⟨pol, FieldKind.E, n11, kv⟩ ((nLast : ℝ) : ℂ)) v := by
  have hpeek := peekR_props ⟨pol, FieldKind.E, n11, kv⟩ l nLast hall hlast
  show flux _ ((sGo ⟨pol, FieldKind.E, n11, kv⟩
      (iMat ⟨pol, FieldKind.E, n11, kv⟩ ((x0 : ℝ) : ℂ)
        (peek (l.map fun p => ((p.1 : ℂ), p.2)) ((nLast : ℝ) : ℂ)))
      (l.map fun p => ((p.1 : ℂ), p.2)) ((nLast : ℝ) : ℂ)).mulVec v) = _
  rw [peek_map l nLast]
  exact flux_sGo pol n11 kv nLast hlast l hall x0 _
    (fun w => flux_iMat pol n11 kv h0.1 hpeek.1 h0.2 hpeek.2 w) v

theorem M2.mul_assoc (A B C : M2) : A * B * C = A * (B * C) := by
  simp only [M2.mul_def, M2.mk.injEq]
  refine ⟨by ring, by ring, by ring, by ring⟩

theorem sGo_mul (c : TMConfig) (A B : M2) (l : List (ℂ × ℝ)) (nLast : ℂ) :
    sGo c (A * B) l nLast = A * sGo c B l nLast := by
  induction l generalizing B with
  | nil => rfl
  | cons p rest ih =>
      show sGo c (A * B * lMat c p.1 p.2 * iMat c p.1 (peek rest nLast)) rest nLast = _
      rw [M2.mul_assoc, M2.mul_assoc, ← M2.mul_assoc B, ih]
      rfl

theorem peek_append_cons (pre : List (ℂ × ℝ)) (nj : ℂ) (dj : ℝ)
    (post : List (ℂ × ℝ)) (nLast : ℂ) :
    peek (pre ++ (nj, dj) :: post) nLast = peek pre nj := by
  cases pre <;> rfl

theorem sGo_split (c : TMConfig) (pre : List (ℂ × ℝ)) (nj : ℂ) (dj : ℝ)
    (post : List (ℂ × ℝ)) (nLast : ℂ) :
    ∀ acc : M2,
      sGo c acc (pre ++ (nj, dj) :: post) nLast =
        sGo c acc pre nj * lMat c nj dj *
          sGo c (iMat c nj (peek post nLast)) post nLast := by
  induction pre with
  | nil =>
      intro acc
      show sGo c (acc * lMat c nj dj * iMat c nj (peek post nLast)) post nLast =
        sGo c acc [] nj * lMat c nj dj *
          sGo c (iMat c nj (peek post nLast)) post nLast
      rw [show sGo c acc [] nj = acc from rfl]
      exact sGo_mul c (acc * lMat c nj dj) (iMat c nj (peek post nLast)) post nLast
  | cons p rest ih =>
      intro acc
      show sGo c (acc * lMat c p.1 p.2 *
        iMat c p.1 (peek (rest ++ (nj, dj) :: post) nLast))
        (rest ++ (nj, dj) :: post) nLast = _
      rw [peek_append_cons]
      exact ih (acc * lMat c p.1 p.2 * iMat c p.1 (peek rest nj))

/-- The exact factorisation `s = s_prime(layer) @ l_matrix(layer)
@ s_dprime(layer)` used implicitly by both implementations. -/
theorem sMatrix_split (c : TMConfig) (n0 : ℂ) (pre : List (ℂ × ℝ)) (nj : ℂ)
    (dj : ℝ) (post : List (ℂ × ℝ)) (nLast : ℂ) :
    sMatrix c n0 (pre ++ (nj, dj) :: post) nLast =
      sPrimedMat c n0 pre nj * lMat c nj dj * sDPrimedMat c nj post nLast := by
  unfold sMatrix sPrimedMat sDPrimedMat
  rw [peek_append_cons]
  exact sGo_split c pre nj dj post nLast (iMat c n0 (peek pre nj))

theorem getD_append_length (pre : List (ℂ × ℝ)) (x : ℂ × ℝ) (post : List (ℂ × ℝ)) :
    (pre ++ x :: post).getD pre.length (0, 0) = x := by
  induction pre with
  | nil => rfl
  | cons p rest ih => exact ih

theorem take_append_length (pre : List (ℂ × ℝ)) (x : ℂ × ℝ) (post : List (ℂ × ℝ)) :
    (pre ++ x :: post).take pre.length = pre := by
  induction pre with
  | nil => rfl
  | cons p rest ih => simpa using ih

theorem drop_append_length_succ (pre : List (ℂ × ℝ)) (x : ℂ × ℝ)
    (post : List (ℂ × ℝ)) :
    (pre ++ x :: post).drop (pre.length + 1) = post := by
  induction pre with
  | nil => rfl
  | cons p rest ih => simpa using ih

/-- C3, amended.  In the primary implementation
(`TransferMatrix.layer_field_amplitudes`) every guided configuration gives
`field⁺ = 1/S[1,0]`, `field⁻ = 0` at the exit layer, as the claim states;
the Methods implementation divides by `S[0,1]` instead
(`C3_counterexample`). -/
theorem C3_guided_exit (c : TMConfig) (n0 : ℂ) (internals : List (ℂ × ℝ))
    (nLast : ℂ) (hg : ¬ c.n11 < max n0.re nLast.re) :
    TM_layer_field_amplitudes c n0 internals nLast (internals.length + 1) =
      (1 / (sMatrix c n0 internals nLast).m10, 0) := by
  unfold TM_layer_field_amplitudes
  rw [if_neg hg, if_neg (Nat.succ_ne_zero internals.length), if_pos rfl]

theorem guidedDemo_xi_clad :
    xi guidedDemoConfig ((4 / 5 : ℝ) : ℂ) = ((3 / 5 : ℝ) : ℂ) * Complex.I := by
  rw [xi_ofReal]
  have harg : (4 / 5 : ℝ) ^ 2 - guidedDemoConfig.n11 ^ 2 = -(9 / 25) := by
    show (4 / 5 : ℝ) ^ 2 - 1 ^ 2 = -(9 / 25)
    norm_num
  rw [harg, csqrt_ofReal_neg (by norm_num)]
  rw [show (-(-(9 / 25 : ℝ))) = (3 / 5 : ℝ) ^ 2 by norm_num,
    Real.sqrt_sq (by norm_num)]

theorem guidedDemo_xi_core :
    xi guidedDemoConfig ((5 / 3 : ℝ) : ℂ) = ((4 / 3 : ℝ) : ℂ) := by
  rw [xi_ofReal]
  have harg : (5 / 3 : ℝ) ^ 2 - guidedDemoConfig.n11 ^ 2 = 16 / 9 := by
    show (5 / 3 : ℝ) ^ 2 - 1 ^ 2 = 16 / 9
    norm_num
  rw [harg, csqrt_ofReal_nonneg (by norm_num)]
  rw [show (16 / 9 : ℝ) = (4 / 3 : ℝ) ^ 2 by norm_num, Real.sqrt_sq (by norm_num)]

theorem guidedDemo_lMat :
    lMat guidedDemoConfig ((5 / 3 : ℝ) : ℂ) 1 = ⟨-Complex.I, 0, 0, Complex.I⟩ := by
  unfold lMat
  rw [guidedDemo_xi_core]
  have hexp : -Complex.I * (((4 / 3 : ℝ) : ℂ) * ((guidedDemoConfig.kVac : ℝ) : ℂ)) *
      ((1 : ℝ) : ℂ) = ((-(Real.pi / 2) : ℝ) : ℂ) * Complex.I := by
    show -Complex.I * (((4 / 3 : ℝ) : ℂ) * ((3 * Real.pi / 8 : ℝ) : ℂ)) *
      ((1 : ℝ) : ℂ) = _
    push_cast
    ring
  have hexp2 : Complex.I * (((4 / 3 : ℝ) : ℂ) * ((guidedDemoConfig.kVac : ℝ) : ℂ)) *
      ((1 : ℝ) : ℂ) = ((Real.pi / 2 : ℝ) : ℂ) * Complex.I := by
    show Complex.I * (((4 / 3 : ℝ) : ℂ) * ((3 * Real.pi / 8 : ℝ) : ℂ)) *
      ((1 : ℝ) : ℂ) = _
    push_cast
    ring
  rw [hexp, hexp2, Complex.exp_mul_I, Complex.exp_mul_I,
    ← Complex.ofReal_cos, ← Complex.ofReal_sin, ← Complex.ofReal_cos,
    ← Complex.ofReal_sin, Real.cos_neg, Real.sin_neg, Real.cos_pi_div_two,
    Real.sin_pi_div_two]
  simp

theorem guidedDemo_iMat_in :
    iMat guidedDemoConfig ((4 / 5 : ℝ) : ℂ) ((5 / 3 : ℝ) : ℂ) =
      ⟨(9 - 20 * Complex.I) / 18, (9 + 20 * Complex.I) / 18,
       (9 + 20 * Complex.I) / 18, (9 - 20 * Complex.I) / 18⟩ := by
  unfold iMat
  rw [rtCoef_E rfl, rtCoefE_s rfl, guidedDemo_xi_clad, guidedDemo_xi_core]
  simp only [M2.mk.injEq]
  refine ⟨?_, ?_, ?_, ?_⟩ <;>
    (apply Complex.ext <;>
      simp [Complex.div_re, Complex.div_im, Complex.normSq_apply,
        Complex.add_re, Complex.add_im, Complex.sub_re, Complex.sub_im,
        Complex.mul_re, Complex.mul_im] <;> norm_num)

theorem guidedDemo_iMat_out :
    iMat guidedDemoConfig ((5 / 3 : ℝ) : ℂ) ((4 / 5 : ℝ) : ℂ) =
      ⟨(20 + 9 * Complex.I) / 40, (20 - 9 * Complex.I) / 40,
       (20 - 9 * Complex.I) / 40, (20 + 9 * Complex.I) / 40⟩ := by
  unfold iMat
  rw [rtCoef_E rfl, rtCoefE_s rfl, guidedDemo_xi_clad, guidedDemo_xi_core]
  simp only [M2.mk.injEq]
  refine ⟨?_, ?_, ?_, ?_⟩ <;>
    (apply Complex.ext <;>
      simp [Complex.div_re, Complex.div_im, Complex.normSq_apply,
        Complex.add_re, Complex.add_im, Complex.sub_re, Complex.sub_im,
        Complex.mul_re, Complex.mul_im] <;> norm_num)

theorem guidedDemo_sMatrix :
    sMatrix guidedDemoConfig ((4 / 5 : ℝ) : ℂ) [(((5 / 3 : ℝ) : ℂ), (1 : ℝ))]
        ((4 / 5 : ℝ) : ℂ) =
      ⟨-(319 / 360 : ℂ), -(481 / 360 : ℂ), (481 / 360 : ℂ), (319 / 360 : ℂ)⟩ := by
  show iMat guidedDemoConfig ((4 / 5 : ℝ) : ℂ) ((5 / 3 : ℝ) : ℂ) *
      lMat guidedDemoConfig ((5 / 3 : ℝ) : ℂ) 1 *
      iMat guidedDemoConfig ((5 / 3 : ℝ) : ℂ) ((4 / 5 : ℝ) : ℂ) = _
  rw [guidedDemo_iMat_in, guidedDemo_iMat_out, guidedDemo_lMat]
  simp only [M2.mul_def, M2.mk.injEq]
  refine ⟨?_, ?_, ?_, ?_⟩ <;>
    (apply Complex.ext <;>
      simp [Complex.div_re, Complex.div_im, Complex.normSq_apply,
        Complex.add_re, Complex.add_im, Complex.sub_re, Complex.sub_im,
        Complex.mul_re, Complex.mul_im, Complex.neg_re, Complex.neg_im] <;>
      norm_num)

/-- C3, counterexample.  On the guided configuration `guidedDemoConfig`
with structure `n = [4/5, 5/3, 4/5]`, `d = [0, 1, 0]`, the Methods
implementation returns `field⁺ = 1/S[0,1] = -360/481` at the exit layer,
which differs from the claimed `1/S[1,0] = 360/481`. -/
theorem C3_counterexample :
    (MTM_calc_layer_field_amplitudes true guidedDemoConfig ((4 / 5 : ℝ) : ℂ)
        [(((5 / 3 : ℝ) : ℂ), (1 : ℝ))] ((4 / 5 : ℝ) : ℂ) 2).1 ≠
      1 / (sMatrix guidedDemoConfig ((4 / 5 : ℝ) : ℂ)
        [(((5 / 3 : ℝ) : ℂ), (1 : ℝ))] ((4 / 5 : ℝ) : ℂ)).m10 := by
  show (1 / (sMatrix guidedDemoConfig ((4 / 5 : ℝ) : ℂ)
      [(((5 / 3 : ℝ) : ℂ), (1 : ℝ))] ((4 / 5 : ℝ) : ℂ)).m01 : ℂ) ≠ _
  rw [guidedDemo_sMatrix]
  norm_num

/-- C3, witness: the primary implementation's guided-exit formula at the
same concrete guided configuration. -/
theorem C3_witness :
    ¬ guidedDemoConfig.n11 <
        max (((4 / 5 : ℝ) : ℂ)).re (((4 / 5 : ℝ) : ℂ)).re ∧
      TM_layer_field_amplitudes guidedDemoConfig ((4 / 5 : ℝ) : ℂ)
          [(((5 / 3 : ℝ) : ℂ), (1 : ℝ))] ((4 / 5 : ℝ) : ℂ) 2 =
        (1 / (sMatrix guidedDemoConfig ((4 / 5 : ℝ) : ℂ)
          [(((5 / 3 : ℝ) : ℂ), (1 : ℝ))] ((4 / 5 : ℝ) : ℂ)).m10, 0) := by
  have hg : ¬ guidedDemoConfig.n11 <
      max (((4 / 5 : ℝ) : ℂ)).re (((4 / 5 : ℝ) : ℂ)).re := by
    show ¬ (1 : ℝ) < max (((4 / 5 : ℝ) : ℂ)).re (((4 / 5 : ℝ) : ℂ)).re
    simp only [Complex.ofReal_re]
    norm_num
  exact ⟨hg, C3_guided_exit guidedDemoConfig ((4 / 5 : ℝ) : ℂ)
    [(((5 / 3 : ℝ) : ℂ), (1 : ℝ))] ((4 / 5 : ℝ) : ℂ) hg⟩

/-- C4, confirmed.  For a radiative configuration and an internal layer,
the Methods implementation's inversion of `s_prime` against the entry
amplitudes `(1, r)` equals the primary implementation's
multiple-reflection recombination, away from the singular configurations
(`S[0,0] = 0`, `S'[0,0] = 0`, `S''[0,0] = 0` or `det S' = 0`, where both
implementations divide by zero). -/
theorem C4_internal_radiative (c : TMConfig) (n0 : ℂ) (pre : List (ℂ × ℝ))
    (nj : ℂ) (dj : ℝ) (post : List (ℂ × ℝ)) (nLast : ℂ)
    (hrad : c.n11 < max n0.re nLast.re)
    (hP : (sPrimedMat c n0 pre nj).m00 ≠ 0)
    (hD : (sDPrimedMat c nj post nLast).m00 ≠ 0)
    (hdet : (sPrimedMat c n0 pre nj).det ≠ 0)
    (hS : (sMatrix c n0 (pre ++ (nj, dj) :: post) nLast).m00 ≠ 0) :
    MTM_calc_layer_field_amplitudes false c n0 (pre ++ (nj, dj) :: post) nLast
        (pre.length + 1) =
      TM_layer_field_amplitudes c n0 (pre ++ (nj, dj) :: post) nLast
        (pre.length + 1) := by
  have hne0 : pre.length + 1 ≠ 0 := Nat.succ_ne_zero _
  have hneN : pre.length + 1 ≠ (pre ++ (nj, dj) :: post).length + 1 := by
    simp only [List.length_append, List.length_cons]
    omega
  set E1 := Complex.exp (-Complex.I * (xi c nj * (c.kVac : ℂ)) * (dj : ℂ)) with hE1def
  set E2 := Complex.exp (Complex.I * (xi c nj * (c.kVac : ℂ)) * (dj : ℂ)) with hE2def
  have hE1ne : E1 ≠ 0 := Complex.exp_ne_zero _
  have hE2ne : E2 ≠ 0 := Complex.exp_ne_zero _
  have hE : E1 * E2 = 1 := by
    rw [hE1def, hE2def, ← Complex.exp_add,
      show -Complex.I * (xi c nj * (c.kVac : ℂ)) * (dj : ℂ) +
        Complex.I * (xi c nj * (c.kVac : ℂ)) * (dj : ℂ) = 0 by ring,
      Complex.exp_zero]
  have he2 : Complex.exp (Complex.I * 2 * (xi c nj * (c.kVac : ℂ)) * (dj : ℂ)) =
      E2 ^ 2 := by
    rw [hE2def, sq, ← Complex.exp_add]
    congr 1
    ring
  have hSm00 : (sPrimedMat c n0 pre nj * lMat c nj dj *
      sDPrimedMat c nj post nLast).m00 =
      (sPrimedMat c n0 pre nj).m00 * E1 * (sDPrimedMat c nj post nLast).m00 +
        (sPrimedMat c n0 pre nj).m01 * E2 * (sDPrimedMat c nj post nLast).m10 := by
    simp only [M2.mul_def, lMat, ← hE1def, ← hE2def]
    ring
  have hSm10 : (sPrimedMat c n0 pre nj * lMat c nj dj *
      sDPrimedMat c nj post nLast).m10 =
      (sPrimedMat c n0 pre nj).m10 * E1 * (sDPrimedMat c nj post nLast).m00 +
        (sPrimedMat c n0 pre nj).m11 * E2 * (sDPrimedMat c nj post nLast).m10 := by
    simp only [M2.mul_def, lMat, ← hE1def, ← hE2def]
    ring
  have hfact : (sPrimedMat c n0 pre nj).m00 * E1 * (sDPrimedMat c nj post nLast).m00 +
      (sPrimedMat c n0 pre nj).m01 * E2 * (sDPrimedMat c nj post nLast).m10 =
      E1 * (sPrimedMat c n0 pre nj).m00 * (sDPrimedMat c nj post nLast).m00 *
        (1 - (-(sPrimedMat c n0 pre nj).m01 / (sPrimedMat c n0 pre nj).m00) *
          ((sDPrimedMat c nj post nLast).m10 / (sDPrimedMat c nj post nLast).m00) *
          E2 ^ 2) := by
    field_simp
    linear_combination (-((sPrimedMat c n0 pre nj).m00 *
      (sDPrimedMat c nj post nLast).m00 * (sPrimedMat c n0 pre nj).m01 *
      (sDPrimedMat c nj post nLast).m10 * E2)) * hE
  have hden2 : (1 - (-(sPrimedMat c n0 pre nj).m01 / (sPrimedMat c n0 pre nj).m00) *
      ((sDPrimedMat c nj post nLast).m10 / (sDPrimedMat c nj post nLast).m00) *
      E2 ^ 2) ≠ 0 := by
    intro hz
    apply hS
    rw [sMatrix_split, hSm00, hfact, hz, mul_zero]
  simp only [MTM_calc_layer_field_amplitudes, TM_layer_field_amplitudes]
  rw [if_pos hrad, if_neg hne0, if_neg hneN, if_neg hne0, if_neg hneN]
  simp only [Nat.add_sub_cancel, take_append_length, getD_append_length,
    drop_append_length_succ]
  rw [sMatrix_split]
  rw [he2, hSm00, hSm10]
  have hSfne : (sPrimedMat c n0 pre nj).m00 * E1 * (sDPrimedMat c nj post nLast).m00 +
      (sPrimedMat c n0 pre nj).m01 * E2 * (sDPrimedMat c nj post nLast).m10 ≠ 0 := by
    rw [hfact]
    exact mul_ne_zero (mul_ne_zero (mul_ne_zero hE1ne hP) hD) hden2
  have hdenomEq : (1 - (-(sPrimedMat c n0 pre nj).m01 / (sPrimedMat c n0 pre nj).m00) *
      ((sDPrimedMat c nj post nLast).m10 / (sDPrimedMat c nj post nLast).m00) *
      E2 ^ 2) =
      ((sPrimedMat c n0 pre nj).m00 * E1 * (sDPrimedMat c nj post nLast).m00 +
        (sPrimedMat c n0 pre nj).m01 * E2 * (sDPrimedMat c nj post nLast).m10) /
        (E1 * (sPrimedMat c n0 pre nj).m00 * (sDPrimedMat c nj post nLast).m00) := by
    rw [eq_div_iff (mul_ne_zero (mul_ne_zero hE1ne hP) hD), hfact]
    ring
  have hEE : E1 * E2 ^ 2 = E2 := by
    rw [sq, ← mul_assoc, hE, one_mul]
  simp only [Prod.mk.injEq]
  have hL1 : ((sPrimedMat c n0 pre nj).m11 -
      (((sPrimedMat c n0 pre nj).m10 * E1 * (sDPrimedMat c nj post nLast).m00 +
        (sPrimedMat c n0 pre nj).m11 * E2 * (sDPrimedMat c nj post nLast).m10) /
       ((sPrimedMat c n0 pre nj).m00 * E1 * (sDPrimedMat c nj post nLast).m00 +
        (sPrimedMat c n0 pre nj).m01 * E2 * (sDPrimedMat c nj post nLast).m10)) *
      (sPrimedMat c n0 pre nj).m01) / (sPrimedMat c n0 pre nj).det =
      E1 * (sDPrimedMat c nj post nLast).m00 /
        ((sPrimedMat c n0 pre nj).m00 * E1 * (sDPrimedMat c nj post nLast).m00 +
          (sPrimedMat c n0 pre nj).m01 * E2 * (sDPrimedMat c nj post nLast).m10) := by
    rw [M2.det] at hdet ⊢
    field_simp
    ring
  have hR1 : (1 / (sPrimedMat c n0 pre nj).m00) /
      (1 - (-(sPrimedMat c n0 pre nj).m01 / (sPrimedMat c n0 pre nj).m00) *
        ((sDPrimedMat c nj post nLast).m10 / (sDPrimedMat c nj post nLast).m00) *
        E2 ^ 2) =
      E1 * (sDPrimedMat c nj post nLast).m00 /
        ((sPrimedMat c n0 pre nj).m00 * E1 * (sDPrimedMat c nj post nLast).m00 +
          (sPrimedMat c n0 pre nj).m01 * E2 * (sDPrimedMat c nj post nLast).m10) := by
    rw [hdenomEq, div_div_eq_mul_div, div_eq_div_iff hSfne hSfne]
    field_simp
    ring
  have hL2 : ((((sPrimedMat c n0 pre nj).m10 * E1 * (sDPrimedMat c nj post nLast).m00 +
        (sPrimedMat c n0 pre nj).m11 * E2 * (sDPrimedMat c nj post nLast).m10) /
       ((sPrimedMat c n0 pre nj).m00 * E1 * (sDPrimedMat c nj post nLast).m00 +
        (sPrimedMat c n0 pre nj).m01 * E2 * (sDPrimedMat c nj post nLast).m10)) *
      (sPrimedMat c n0 pre nj).m00 - (sPrimedMat c n0 pre nj).m10) /
      (sPrimedMat c n0 pre nj).det =
      E2 * (sDPrimedMat c nj post nLast).m10 /
        ((sPrimedMat c n0 pre nj).m00 * E1 * (sDPrimedMat c nj post nLast).m00 +
          (sPrimedMat c n0 pre nj).m01 * E2 * (sDPrimedMat c nj post nLast).m10) := by
    rw [M2.det] at hdet ⊢
    field_simp
    ring
  have hR2 : (1 / (sPrimedMat c n0 pre nj).m00) /
      (1 - (-(sPrimedMat c n0 pre nj).m01 / (sPrimedMat c n0 pre nj).m00) *
        ((sDPrimedMat c nj post nLast).m10 / (sDPrimedMat c nj post nLast).m00) *
        E2 ^ 2) *
      ((sDPrimedMat c nj post nLast).m10 / (sDPrimedMat c nj post nLast).m00) *
      E2 ^ 2 =
      E2 * (sDPrimedMat c nj post nLast).m10 /
        ((sPrimedMat c n0 pre nj).m00 * E1 * (sDPrimedMat c nj post nLast).m00 +
          (sPrimedMat c n0 pre nj).m01 * E2 * (sDPrimedMat c nj post nLast).m10) := by
    rw [hdenomEq, div_div_eq_mul_div]
    field_simp
    linear_combination ((sDPrimedMat c nj post nLast).m10 *
      (sDPrimedMat c nj post nLast).m00 * (sPrimedMat c n0 pre nj).m00 *
      ((sPrimedMat c n0 pre nj).m00 * E1 * (sDPrimedMat c nj post nLast).m00 +
        (sPrimedMat c n0 pre nj).m01 * E2 * (sDPrimedMat c nj post nLast).m10)) * hEE
  exact ⟨hL1.trans hR1.symm, hL2.trans hR2.symm⟩

theorem radDemo_xi_clad :
    xi radDemoConfig ((1 : ℝ) : ℂ) = ((1 : ℝ) : ℂ) :=
  xi_zero radDemoConfig rfl (by norm_num)

theorem radDemo_xi_core :
    xi radDemoConfig ((2 : ℝ) : ℂ) = ((2 : ℝ) : ℂ) :=
  xi_zero radDemoConfig rfl (by norm_num)

theorem radDemo_lMat :
    lMat radDemoConfig ((2 : ℝ) : ℂ) 1 = ⟨-Complex.I, 0, 0, Complex.I⟩ := by
  unfold lMat
  rw [radDemo_xi_core]
  have hexp : -Complex.I * (((2 : ℝ) : ℂ) * ((radDemoConfig.kVac : ℝ) : ℂ)) *
      ((1 : ℝ) : ℂ) = ((-(Real.pi / 2) : ℝ) : ℂ) * Complex.I := by
    show -Complex.I * (((2 : ℝ) : ℂ) * ((Real.pi / 4 : ℝ) : ℂ)) *
      ((1 : ℝ) : ℂ) = _
    push_cast
    ring
  have hexp2 : Complex.I * (((2 : ℝ) : ℂ) * ((radDemoConfig.kVac : ℝ) : ℂ)) *
      ((1 : ℝ) : ℂ) = ((Real.pi / 2 : ℝ) : ℂ) * Complex.I := by
    show Complex.I * (((2 : ℝ) : ℂ) * ((Real.pi / 4 : ℝ) : ℂ)) *
      ((1 : ℝ) : ℂ) = _
    push_cast
    ring
  rw [hexp, hexp2, Complex.exp_mul_I, Complex.exp_mul_I,
    ← Complex.ofReal_cos, ← Complex.ofReal_sin, ← Complex.ofReal_cos,
    ← Complex.ofReal_sin, Real.cos_neg, Real.sin_neg, Real.cos_pi_div_two,
    Real.sin_pi_div_two]
  simp

theorem radDemo_iMat_in :
    iMat radDemoConfig ((1 : ℝ) : ℂ) ((2 : ℝ) : ℂ) =
      ⟨(3 / 2 : ℂ), -(1 / 2 : ℂ), -(1 / 2 : ℂ), (3 / 2 : ℂ)⟩ := by
  unfold iMat
  rw [rtCoef_E rfl, rtCoefE_s rfl, radDemo_xi_clad, radDemo_xi_core]
  simp only [M2.mk.injEq]
  push_cast
  norm_num

theorem radDemo_iMat_out :
    iMat radDemoConfig ((2 : ℝ) : ℂ) ((1 : ℝ) : ℂ) =
      ⟨(3 / 4 : ℂ), (1 / 4 : ℂ), (1 / 4 : ℂ), (3 / 4 : ℂ)⟩ := by
  unfold iMat
  rw [rtCoef_E rfl, rtCoefE_s rfl, radDemo_xi_clad, radDemo_xi_core]
  simp only [M2.mk.injEq]
  push_cast
  norm_num

theorem radDemo_sMatrix :
    sMatrix radDemoConfig ((1 : ℝ) : ℂ) [(((2 : ℝ) : ℂ), (1 : ℝ))]
        ((1 : ℝ) : ℂ) =
      ⟨-(5 / 4 : ℂ) * Complex.I, -(3 / 4 : ℂ) * Complex.I,
       (3 / 4 : ℂ) * Complex.I, (5 / 4 : ℂ) * Complex.I⟩ := by
  show iMat radDemoConfig ((1 : ℝ) : ℂ) ((2 : ℝ) : ℂ) *
      lMat radDemoConfig ((2 : ℝ) : ℂ) 1 *
      iMat radDemoConfig ((2 : ℝ) : ℂ) ((1 : ℝ) : ℂ) = _
  rw [radDemo_iMat_in, radDemo_iMat_out, radDemo_lMat]
  simp only [M2.mul_def, M2.mk.injEq]
  refine ⟨?_, ?_, ?_, ?_⟩ <;> ring

/-- C4, witness: the [1, 2, 1] quarter-turn structure at normal incidence;
every divider is nonzero and the two implementations agree on the internal
layer. -/
theorem C4_witness :
    radDemoConfig.n11 < max (((1 : ℝ) : ℂ)).re (((1 : ℝ) : ℂ)).re ∧
    (sPrimedMat radDemoConfig ((1 : ℝ) : ℂ) [] ((2 : ℝ) : ℂ)).m00 ≠ 0 ∧
    (sDPrimedMat radDemoConfig ((2 : ℝ) : ℂ) [] ((1 : ℝ) : ℂ)).m00 ≠ 0 ∧
    (sPrimedMat radDemoConfig ((1 : ℝ) : ℂ) [] ((2 : ℝ) : ℂ)).det ≠ 0 ∧
    (sMatrix radDemoConfig ((1 : ℝ) : ℂ) [(((2 : ℝ) : ℂ), (1 : ℝ))]
      ((1 : ℝ) : ℂ)).m00 ≠ 0 ∧
    MTM_calc_layer_field_amplitudes false radDemoConfig ((1 : ℝ) : ℂ)
        [(((2 : ℝ) : ℂ), (1 : ℝ))] ((1 : ℝ) : ℂ) 1 =
      TM_layer_field_amplitudes radDemoConfig ((1 : ℝ) : ℂ)
        [(((2 : ℝ) : ℂ), (1 : ℝ))] ((1 : ℝ) : ℂ) 1 := by
  have h1 : radDemoConfig.n11 < max (((1 : ℝ) : ℂ)).re (((1 : ℝ) : ℂ)).re := by
    show (0 : ℝ) < max (((1 : ℝ) : ℂ)).re (((1 : ℝ) : ℂ)).re
    simp only [Complex.ofReal_re]
    norm_num
  have h2 : (sPrimedMat radDemoConfig ((1 : ℝ) : ℂ) [] ((2 : ℝ) : ℂ)).m00 ≠ 0 := by
    show (iMat radDemoConfig ((1 : ℝ) : ℂ) ((2 : ℝ) : ℂ)).m00 ≠ 0
    rw [radDemo_iMat_in]
    norm_num
  have h3 : (sDPrimedMat radDemoConfig ((2 : ℝ) : ℂ) [] ((1 : ℝ) : ℂ)).m00 ≠ 0 := by
    show (iMat radDemoConfig ((2 : ℝ) : ℂ) ((1 : ℝ) : ℂ)).m00 ≠ 0
    rw [radDemo_iMat_out]
    norm_num
  have h4 : (sPrimedMat radDemoConfig ((1 : ℝ) : ℂ) [] ((2 : ℝ) : ℂ)).det ≠ 0 := by
    show (iMat radDemoConfig ((1 : ℝ) : ℂ) ((2 : ℝ) : ℂ)).det ≠ 0
    rw [radDemo_iMat_in, M2.det]
    norm_num
  have h5 : (sMatrix radDemoConfig ((1 : ℝ) : ℂ) [(((2 : ℝ) : ℂ), (1 : ℝ))]
      ((1 : ℝ) : ℂ)).m00 ≠ 0 := by
    rw [radDemo_sMatrix]
    show -(5 / 4 : ℂ) * Complex.I ≠ 0
    simp [Complex.I_ne_zero]
  exact ⟨h1, h2, h3, h4, h5,
    C4_internal_radiative radDemoConfig ((1 : ℝ) : ℂ) [] ((2 : ℝ) : ℂ) 1 []
      ((1 : ℝ) : ℂ) h1 h2 h3 h4 h5⟩

/-- C1, amended.  For every lossless structure (positive real layer
indices), both polarisations, field `E`, and every incidence angle
`0 ≤ θ < π/2` whose transmitted wave propagates in the exit medium
(`n_entry·sin θ < n_exit`) and whose `n_11 = n_entry·sin θ` does not
coincide with any internal layer index (the degenerate `t = 0` case the
spec itself singles out), `calc_reflectance_and_transmittance` with the
beam-expansion correction satisfies `R + T = 1` exactly.  Beyond the exit
critical angle the corrected `T` is not even real and the claimed identity
fails (`C1_counterexample`). -/
theorem C1_energy_conservation (pol : Pol) (kv th x0 xN : ℝ) (l : List (ℝ × ℝ))
    (h0 : 0 < x0) (hN : 0 < xN) (hth0 : 0 ≤ th) (hth1 : th < Real.pi / 2)
    (hl : ∀ p ∈ l, 0 < p.1 ∧ p.1 ≠ x0 * Real.sin th)
    (hexit : x0 * Real.sin th < xN) :
    (((calc_reflectance_and_transmittance ⟨pol, FieldKind.E, x0 * Real.sin th, kv⟩ th
        ((x0 : ℝ) : ℂ) (l.map fun p => ((p.1 : ℂ), p.2)) ((xN : ℝ) : ℂ)).1 : ℝ) : ℂ) +
      (calc_reflectance_and_transmittance ⟨pol, FieldKind.E, x0 * Real.sin th, kv⟩ th
        ((x0 : ℝ) : ℂ) (l.map fun p => ((p.1 : ℂ), p.2)) ((xN : ℝ) : ℂ)).2 = 1 := by
  have hpi := Real.pi_pos
  have hsin0 : 0 ≤ Real.sin th :=
    Real.sin_nonneg_of_nonneg_of_le_pi hth0 (by linarith)
  have hsin1 : Real.sin th < 1 := by
    have hmono := Real.strictMonoOn_sin (a := th) (b := Real.pi / 2)
      ⟨by linarith, by linarith⟩ ⟨by linarith, le_refl _⟩ hth1
    rwa [Real.sin_pi_div_two] at hmono
  have hcos : 0 < Real.cos th := Real.cos_pos_of_mem_Ioo ⟨by linarith, hth1⟩
  have h11nn : 0 ≤ x0 * Real.sin th := mul_nonneg h0.le hsin0
  have h11x0 : x0 * Real.sin th < x0 := by nlinarith
  have hxi0 : xi ⟨pol, FieldKind.E, x0 * Real.sin th, kv⟩ ((x0 : ℝ) : ℂ) =
      ((x0 * Real.cos th : ℝ) : ℂ) := by
    rw [xi_ofReal]
    have hs := Real.sin_sq_add_cos_sq th
    have harg : x0 ^ 2 -
        (TMConfig.mk pol FieldKind.E (x0 * Real.sin th) kv).n11 ^ 2 =
        (x0 * Real.cos th) ^ 2 := by
      show x0 ^ 2 - (x0 * Real.sin th) ^ 2 = (x0 * Real.cos th) ^ 2
      nlinarith [hs]
    rw [harg, csqrt_ofReal_nonneg (by positivity), Real.sqrt_sq (by positivity)]
  have hargN : (0 : ℝ) ≤ xN ^ 2 - (x0 * Real.sin th) ^ 2 := by nlinarith
  have hxiN : xi ⟨pol, FieldKind.E, x0 * Real.sin th, kv⟩ ((xN : ℝ) : ℂ) =
      ((Real.sqrt (xN ^ 2 - (x0 * Real.sin th) ^ 2) : ℝ) : ℂ) := by
    rw [xi_ofReal]
    show csqrt (((xN ^ 2 - (x0 * Real.sin th) ^ 2 : ℝ)) : ℂ) = _
    rw [csqrt_ofReal_nonneg hargN]
  have hρNpos : 0 < Real.sqrt (xN ^ 2 - (x0 * Real.sin th) ^ 2) :=
    Real.sqrt_pos.mpr (by nlinarith)
  have hx0P : IsXiPos (xi ⟨pol, FieldKind.E, x0 * Real.sin th, kv⟩ ((x0 : ℝ) : ℂ)) := by
    rw [hxi0]
    refine Or.inl ⟨?_, ?_⟩
    · simp only [Complex.ofReal_re]
      positivity
    · simp
  have hxNP : IsXiPos (xi ⟨pol, FieldKind.E, x0 * Real.sin th, kv⟩ ((xN : ℝ) : ℂ)) := by
    rw [hxiN]
    refine Or.inl ⟨?_, ?_⟩
    · simp only [Complex.ofReal_re]
      exact hρNpos
    · simp
  have hallP : ∀ p ∈ l, 0 < p.1 ∧
      IsXiPos (xi ⟨pol, FieldKind.E, x0 * Real.sin th, kv⟩ ((p.1 : ℝ) : ℂ)) := by
    intro p hp
    exact ⟨(hl p hp).1,
      xi_isXiPos ⟨pol, FieldKind.E, x0 * Real.sin th, kv⟩ (hl p hp).1 h11nn (hl p hp).2⟩
  have hcons := flux_sMatrix pol (x0 * Real.sin th) kv x0 xN l ⟨h0, hx0P⟩ ⟨hN, hxNP⟩
    hallP (1, 0)
  rw [hxi0, hxiN] at hcons
  have hmul : (sMatrix ⟨pol, FieldKind.E, x0 * Real.sin th, kv⟩ ((x0 : ℝ) : ℂ)
      (l.map fun p => ((p.1 : ℂ), p.2)) ((xN : ℝ) : ℂ)).mulVec (1, 0) =
      ((sMatrix ⟨pol, FieldKind.E, x0 * Real.sin th, kv⟩ ((x0 : ℝ) : ℂ)
        (l.map fun p => ((p.1 : ℂ), p.2)) ((xN : ℝ) : ℂ)).m00,
       (sMatrix ⟨pol, FieldKind.E, x0 * Real.sin th, kv⟩ ((x0 : ℝ) : ℂ)
        (l.map fun p => ((p.1 : ℂ), p.2)) ((xN : ℝ) : ℂ)).m10) := by
    simp [M2.mulVec]
  rw [hmul, flux_ofReal, flux_ofReal] at hcons
  simp only [Complex.normSq_one, Complex.normSq_zero, sub_zero, mul_one] at hcons
  set S := sMatrix ⟨pol, FieldKind.E, x0 * Real.sin th, kv⟩ ((x0 : ℝ) : ℂ)
    (l.map fun p => ((p.1 : ℂ), p.2)) ((xN : ℝ) : ℂ) with hSdef
  have hS00nsq : Complex.normSq S.m00 ≠ 0 := by
    intro hz
    rw [hz] at hcons
    nlinarith [mul_nonneg (mul_pos h0 hcos).le (Complex.normSq_nonneg S.m10), hρNpos]
  have hS00 : S.m00 ≠ 0 := by
    intro hz
    exact hS00nsq (by rw [hz]; simp)
  have hR : Complex.abs (S.m10 / S.m00) ^ 2 =
      Complex.normSq S.m10 / Complex.normSq S.m00 := by
    rw [map_div₀, div_pow, Complex.sq_abs, Complex.sq_abs]
  have hT0 : Complex.abs (1 / S.m00) ^ 2 = 1 / Complex.normSq S.m00 := by
    rw [map_div₀, div_pow, Complex.sq_abs, Complex.sq_abs, Complex.normSq_one]
  have hsnell : snellCos (((x0 : ℝ) : ℂ)).re (((xN : ℝ) : ℂ)).re th =
      ((Real.sqrt (xN ^ 2 - (x0 * Real.sin th) ^ 2) / xN : ℝ) : ℂ) := by
    simp only [Complex.ofReal_re]
    unfold snellCos
    have hcast : (1 : ℂ) - ((x0 * Real.sin th / xN : ℝ) : ℂ) ^ 2 =
        (((1 - (x0 * Real.sin th / xN) ^ 2 : ℝ)) : ℂ) := by
      push_cast
      ring
    rw [hcast]
    have hsq : Real.sqrt (xN ^ 2 - (x0 * Real.sin th) ^ 2) ^ 2 =
        xN ^ 2 - (x0 * Real.sin th) ^ 2 := Real.sq_sqrt hargN
    have harg : (1 : ℝ) - (x0 * Real.sin th / xN) ^ 2 =
        (Real.sqrt (xN ^ 2 - (x0 * Real.sin th) ^ 2) / xN) ^ 2 := by
      rw [div_pow, div_pow, hsq]
      field_simp
    rw [harg, csqrt_ofReal_nonneg (by positivity), Real.sqrt_sq (by positivity)]
  show ((Complex.abs (calc_r_and_t ⟨pol, FieldKind.E, x0 * Real.sin th, kv⟩
      ((x0 : ℝ) : ℂ) (l.map fun p => ((p.1 : ℂ), p.2)) ((xN : ℝ) : ℂ)).1 ^ 2 : ℝ) : ℂ) +
      ((Complex.abs (calc_r_and_t ⟨pol, FieldKind.E, x0 * Real.sin th, kv⟩
          ((x0 : ℝ) : ℂ) (l.map fun p => ((p.1 : ℂ), p.2)) ((xN : ℝ) : ℂ)).2 ^ 2 *
        ((((xN : ℝ) : ℂ)).re / (((x0 : ℝ) : ℂ)).re) : ℝ) : ℂ) *
      (snellCos (((x0 : ℝ) : ℂ)).re (((xN : ℝ) : ℂ)).re th / ((Real.cos th : ℝ) : ℂ)) = 1
  have hrt1 : (calc_r_and_t ⟨pol, FieldKind.E, x0 * Real.sin th, kv⟩
      ((x0 : ℝ) : ℂ) (l.map fun p => ((p.1 : ℂ), p.2)) ((xN : ℝ) : ℂ)).1 =
      S.m10 / S.m00 := rfl
  have hrt2 : (calc_r_and_t ⟨pol, FieldKind.E, x0 * Real.sin th, kv⟩
      ((x0 : ℝ) : ℂ) (l.map fun p => ((p.1 : ℂ), p.2)) ((xN : ℝ) : ℂ)).2 =
      1 / S.m00 := rfl
  rw [hrt1, hrt2, hR, hT0, hsnell]
  simp only [Complex.ofReal_re]
  rw [show (((Real.sqrt (xN ^ 2 - (x0 * Real.sin th) ^ 2) / xN : ℝ)) : ℂ) /
      ((Real.cos th : ℝ) : ℂ) =
      (((Real.sqrt (xN ^ 2 - (x0 * Real.sin th) ^ 2) / xN / Real.cos th : ℝ)) : ℂ) by
    push_cast; ring]
  rw [← Complex.ofReal_mul, ← Complex.ofReal_add]
  rw [show (1 : ℂ) = ((1 : ℝ) : ℂ) by norm_num]
  rw [Complex.ofReal_inj]
  have hxNne : xN ≠ 0 := hN.ne'
  have hx0ne : x0 ≠ 0 := h0.ne'
  have hcosne : Real.cos th ≠ 0 := hcos.ne'
  field_simp
  linear_combination (-(xN * Complex.normSq S.m00)) * hcons

/-- C1, counterexample.  For the lossless two-layer structure `n = [2, 1]`
at incidence angle `θ = π/3` (60°, beyond the critical angle of the exit
medium) with `s` polarisation and field `E`, the beam-expansion-corrected
transmittance is purely imaginary (`T = (4√2/3)·i`) while `R = 1`, so
`R + T ≠ 1`: the claim fails for angles with total internal reflection. -/
theorem C1_counterexample :
    (((calc_reflectance_and_transmittance
        ⟨Pol.s, FieldKind.E, 2 * Real.sin (Real.pi / 3), 1⟩ (Real.pi / 3)
        ((2 : ℝ) : ℂ) [] ((1 : ℝ) : ℂ)).1 : ℝ) : ℂ) +
      (calc_reflectance_and_transmittance
        ⟨Pol.s, FieldKind.E, 2 * Real.sin (Real.pi / 3), 1⟩ (Real.pi / 3)
        ((2 : ℝ) : ℂ) [] ((1 : ℝ) : ℂ)).2 ≠ 1 := by
  have h3 : Real.sqrt 3 ^ 2 = 3 := Real.sq_sqrt (by norm_num)
  have h2 : Real.sqrt 2 ^ 2 = 2 := Real.sq_sqrt (by norm_num)
  have h2pos : 0 < Real.sqrt 2 := Real.sqrt_pos.mpr (by norm_num)
  have hsin : Real.sin (Real.pi / 3) = Real.sqrt 3 / 2 := Real.sin_pi_div_three
  have hcosv : Real.cos (Real.pi / 3) = 1 / 2 := Real.cos_pi_div_three
  have hxi0 : xi ⟨Pol.s, FieldKind.E, 2 * Real.sin (Real.pi / 3), 1⟩ ((2 : ℝ) : ℂ) =
      ((1 : ℝ) : ℂ) := by
    rw [xi_ofReal]
    have harg : (2 : ℝ) ^ 2 - (2 * Real.sin (Real.pi / 3)) ^ 2 = 1 := by
      rw [hsin]
      nlinarith [h3]
    show csqrt (((2 : ℝ) ^ 2 - (2 * Real.sin (Real.pi / 3)) ^ 2 : ℝ) : ℂ) = _
    rw [harg, csqrt_ofReal_nonneg (by norm_num), Real.sqrt_one]
  have hxi1 : xi ⟨Pol.s, FieldKind.E, 2 * Real.sin (Real.pi / 3), 1⟩ ((1 : ℝ) : ℂ) =
      ((Real.sqrt 2 : ℝ) : ℂ) * Complex.I := by
    rw [xi_ofReal]
    have harg : (1 : ℝ) ^ 2 - (2 * Real.sin (Real.pi / 3)) ^ 2 = -2 := by
      rw [hsin]
      nlinarith [h3]
    show csqrt (((1 : ℝ) ^ 2 - (2 * Real.sin (Real.pi / 3)) ^ 2 : ℝ) : ℂ) = _
    rw [harg, csqrt_ofReal_neg (by norm_num)]
    norm_num
  have hrt : rtCoef ⟨Pol.s, FieldKind.E, 2 * Real.sin (Real.pi / 3), 1⟩
      ((2 : ℝ) : ℂ) ((1 : ℝ) : ℂ) =
      ((1 - ((Real.sqrt 2 : ℝ) : ℂ) * Complex.I) / (1 + ((Real.sqrt 2 : ℝ) : ℂ) * Complex.I),
       2 / (1 + ((Real.sqrt 2 : ℝ) : ℂ) * Complex.I)) := by
    rw [rtCoef_E rfl, rtCoefE_s rfl, hxi0, hxi1]
    norm_num
  have hden : (1 : ℂ) + ((Real.sqrt 2 : ℝ) : ℂ) * Complex.I ≠ 0 := by
    intro h
    have him := congrArg Complex.im h
    simp only [Complex.add_im, Complex.one_im, Complex.mul_im, Complex.ofReal_re,
      Complex.I_im, Complex.ofReal_im, Complex.I_re, Complex.zero_im, mul_one,
      mul_zero, add_zero, zero_add] at him
    exact h2pos.ne' him
  have ht : (rtCoef ⟨Pol.s, FieldKind.E, 2 * Real.sin (Real.pi / 3), 1⟩
      ((2 : ℝ) : ℂ) ((1 : ℝ) : ℂ)).2 ≠ 0 := by
    rw [hrt]
    exact div_ne_zero two_ne_zero hden
  have hrtfull := calc_r_and_t_single ⟨Pol.s, FieldKind.E, 2 * Real.sin (Real.pi / 3), 1⟩
    ((2 : ℝ) : ℂ) ((1 : ℝ) : ℂ) ht
  have hnsq1 : Complex.normSq (1 - ((Real.sqrt 2 : ℝ) : ℂ) * Complex.I) = 3 := by
    simp only [Complex.normSq_apply, Complex.sub_re, Complex.one_re, Complex.mul_re,
      Complex.ofReal_re, Complex.I_re, Complex.ofReal_im, Complex.I_im, Complex.sub_im,
      Complex.one_im, Complex.mul_im]
    nlinarith [h2]
  have hnsq2 : Complex.normSq (1 + ((Real.sqrt 2 : ℝ) : ℂ) * Complex.I) = 3 := by
    simp only [Complex.normSq_apply, Complex.add_re, Complex.one_re, Complex.mul_re,
      Complex.ofReal_re, Complex.I_re, Complex.ofReal_im, Complex.I_im, Complex.add_im,
      Complex.one_im, Complex.mul_im]
    nlinarith [h2]
  have hR : Complex.abs ((calc_r_and_t ⟨Pol.s, FieldKind.E, 2 * Real.sin (Real.pi / 3), 1⟩
      ((2 : ℝ) : ℂ) [] ((1 : ℝ) : ℂ)).1) ^ 2 = 1 := by
    rw [hrtfull, hrt]
    show Complex.abs ((1 - ((Real.sqrt 2 : ℝ) : ℂ) * Complex.I) /
      (1 + ((Real.sqrt 2 : ℝ) : ℂ) * Complex.I)) ^ 2 = 1
    rw [map_div₀, div_pow, Complex.sq_abs, Complex.sq_abs, hnsq1, hnsq2]
    norm_num
  have hT2 : Complex.abs ((calc_r_and_t ⟨Pol.s, FieldKind.E, 2 * Real.sin (Real.pi / 3), 1⟩
      ((2 : ℝ) : ℂ) [] ((1 : ℝ) : ℂ)).2) ^ 2 = 4 / 3 := by
    rw [hrtfull, hrt]
    show Complex.abs ((2 : ℂ) / (1 + ((Real.sqrt 2 : ℝ) : ℂ) * Complex.I)) ^ 2 = 4 / 3
    rw [map_div₀, div_pow, Complex.sq_abs, Complex.sq_abs, hnsq2]
    norm_num [Complex.normSq_apply]
  have hsnell : snellCos (((2 : ℝ) : ℂ)).re (((1 : ℝ) : ℂ)).re (Real.pi / 3) =
      ((Real.sqrt 2 : ℝ) : ℂ) * Complex.I := by
    simp only [Complex.ofReal_re]
    unfold snellCos
    have hcast : (1 : ℂ) - ((2 * Real.sin (Real.pi / 3) / 1 : ℝ) : ℂ) ^ 2 =
        (((1 - (2 * Real.sin (Real.pi / 3) / 1) ^ 2 : ℝ)) : ℂ) := by
      push_cast
      ring
    rw [hcast]
    have harg : (1 : ℝ) - (2 * Real.sin (Real.pi / 3) / 1) ^ 2 = -2 := by
      rw [hsin]
      nlinarith [h3]
    rw [harg, csqrt_ofReal_neg (by norm_num)]
    norm_num
  have hTval : (calc_reflectance_and_transmittance
      ⟨Pol.s, FieldKind.E, 2 * Real.sin (Real.pi / 3), 1⟩ (Real.pi / 3)
      ((2 : ℝ) : ℂ) [] ((1 : ℝ) : ℂ)).2 =
      ((4 * Real.sqrt 2 / 3 : ℝ) : ℂ) * Complex.I := by
    show ((Complex.abs ((calc_r_and_t ⟨Pol.s, FieldKind.E, 2 * Real.sin (Real.pi / 3), 1⟩
        ((2 : ℝ) : ℂ) [] ((1 : ℝ) : ℂ)).2) ^ 2 * ((((1 : ℝ) : ℂ)).re / (((2 : ℝ) : ℂ)).re) : ℝ) : ℂ) *
        (snellCos (((2 : ℝ) : ℂ)).re (((1 : ℝ) : ℂ)).re (Real.pi / 3) /
          ((Real.cos (Real.pi / 3) : ℝ) : ℂ)) = _
    rw [hT2, hsnell, hcosv]
    simp only [Complex.ofReal_re]
    push_cast
    field_simp
    ring
  intro heq
  have hRval : (calc_reflectance_and_transmittance
      ⟨Pol.s, FieldKind.E, 2 * Real.sin (Real.pi / 3), 1⟩ (Real.pi / 3)
      ((2 : ℝ) : ℂ) [] ((1 : ℝ) : ℂ)).1 = 1 := hR
  rw [hRval, hTval] at heq
  have him := congrArg Complex.im heq
  simp only [Complex.add_im, Complex.ofReal_im, Complex.mul_im, Complex.ofReal_re,
    Complex.I_im, Complex.I_re, Complex.one_im, mul_one, mul_zero, add_zero,
    zero_add] at him
  nlinarith [h2pos, him]

/-- C1, witness: the amended energy-conservation statement instantiated at
normal incidence on the two-layer structure `n = [1, 2]`. -/
theorem C1_witness :
    ((0 : ℝ) ≤ 0 ∧ (0 : ℝ) < Real.pi / 2 ∧ (1 : ℝ) * Real.sin 0 < 2) ∧
      (((calc_reflectance_and_transmittance
          ⟨Pol.s, FieldKind.E, 1 * Real.sin 0, 1⟩ 0 ((1 : ℝ) : ℂ)
          (([] : List (ℝ × ℝ)).map fun p => ((p.1 : ℂ), p.2)) ((2 : ℝ) : ℂ)).1 : ℝ) : ℂ) +
        (calc_reflectance_and_transmittance
          ⟨Pol.s, FieldKind.E, 1 * Real.sin 0, 1⟩ 0 ((1 : ℝ) : ℂ)
          (([] : List (ℝ × ℝ)).map fun p => ((p.1 : ℂ), p.2)) ((2 : ℝ) : ℂ)).2 = 1 :=
  ⟨⟨le_refl 0, div_pos Real.pi_pos two_pos, by simp [Real.sin_zero]⟩,
    C1_energy_conservation Pol.s 1 0 1 2 [] one_pos two_pos (le_refl 0)
      (div_pos Real.pi_pos two_pos) (by simp) (by simp [Real.sin_zero])⟩

/-- C7, counterexample.  At the interface from `n_j = 1` to `n_k = 2` with
`s` polarisation, field `E` and `n_11 = 1` (the normal-incidence wavevector
of a wave travelling parallel to the interface, `ξ_j = 0`), the transmission
coefficient is `t = 0` and the kernels do not raise: the primary
implementation returns the all-`inf` matrix and the Methods implementation
the all-`nan` matrix. -/
theorem C7_counterexample :
    TM_i_matrix ⟨Pol.s, FieldKind.E, 1, 1⟩ ((1 : ℝ) : ℂ) ((2 : ℝ) : ℂ) =
        IMatResult.infinite ∧
      MTM_calc_i_matrix ⟨Pol.s, FieldKind.E, 1, 1⟩ ((1 : ℝ) : ℂ) ((2 : ℝ) : ℂ) =
        IMatResult.nanMat := by
  have h0 : ((1 : ℝ) ^ 2 - (1 : ℝ) ^ 2 : ℝ) = 0 := by norm_num
  have hx : xi ⟨Pol.s, FieldKind.E, 1, 1⟩ ((1 : ℝ) : ℂ) = 0 := by
    rw [xi_ofReal]
    simp only [TMConfig.n11] at h0 ⊢
    rw [h0, csqrt_ofReal_nonneg le_rfl, Real.sqrt_zero]
    simp
  have hx' : xi ⟨Pol.s, FieldKind.E, 1, 1⟩ (1 : ℂ) = 0 := by exact_mod_cast hx
  have ht : (rtCoef ⟨Pol.s, FieldKind.E, 1, 1⟩ ((1 : ℝ) : ℂ) ((2 : ℝ) : ℂ)).2 = 0 := by
    rw [rtCoef_E rfl, rtCoefE_s rfl]
    simp [hx']
  refine ⟨?_, ?_⟩
  · unfold TM_i_matrix
    rw [if_pos ht]
  · unfold MTM_calc_i_matrix
    rw [if_pos ht]

/-- C7, amended.  Whenever `t ≠ 0` both interface-matrix kernels return
`(1/t) * [[1, r], [r, 1]]`; when `t = 0` neither raises: the primary kernel
returns a matrix of `inf` entries and the Methods kernel a matrix of `nan`
entries (shown at a concrete degenerate input by `C7_counterexample`). -/
theorem C7_interface_matrix (c : TMConfig) (nj nk : ℂ)
    (ht : (rtCoef c nj nk).2 ≠ 0) :
    TM_i_matrix c nj nk =
        IMatResult.ok
          ⟨1 / (rtCoef c nj nk).2, (rtCoef c nj nk).1 / (rtCoef c nj nk).2,
            (rtCoef c nj nk).1 / (rtCoef c nj nk).2, 1 / (rtCoef c nj nk).2⟩ ∧
      MTM_calc_i_matrix c nj nk = IMatResult.ok (iMat c nj nk) := by
  unfold TM_i_matrix MTM_calc_i_matrix
  rw [if_neg ht, if_neg ht]
  exact ⟨rfl, rfl⟩

/-- C7, witness: the non-degenerate branch of `C7_interface_matrix` at the
interface `n_j = 1`, `n_k = 2` at normal incidence. -/
theorem C7_witness :
    (rtCoef ⟨Pol.s, FieldKind.E, 0, 1⟩ ((1 : ℝ) : ℂ) ((2 : ℝ) : ℂ)).2 ≠ 0 ∧
      TM_i_matrix ⟨Pol.s, FieldKind.E, 0, 1⟩ ((1 : ℝ) : ℂ) ((2 : ℝ) : ℂ) =
        IMatResult.ok
          ⟨1 / (rtCoef ⟨Pol.s, FieldKind.E, 0, 1⟩ ((1 : ℝ) : ℂ) ((2 : ℝ) : ℂ)).2,
            (rtCoef ⟨Pol.s, FieldKind.E, 0, 1⟩ ((1 : ℝ) : ℂ) ((2 : ℝ) : ℂ)).1 /
              (rtCoef ⟨Pol.s, FieldKind.E, 0, 1⟩ ((1 : ℝ) : ℂ) ((2 : ℝ) : ℂ)).2,
            (rtCoef ⟨Pol.s, FieldKind.E, 0, 1⟩ ((1 : ℝ) : ℂ) ((2 : ℝ) : ℂ)).1 /
              (rtCoef ⟨Pol.s, FieldKind.E, 0, 1⟩ ((1 : ℝ) : ℂ) ((2 : ℝ) : ℂ)).2,
            1 / (rtCoef ⟨Pol.s, FieldKind.E, 0, 1⟩ ((1 : ℝ) : ℂ) ((2 : ℝ) : ℂ)).2⟩ :=
  ⟨rtCoef_normal_t_ne_zero Pol.s 1 one_pos two_pos,
    (C7_interface_matrix _ _ _ (rtCoef_normal_t_ne_zero Pol.s 1 one_pos two_pos)).1⟩

/-- C2, witness: the amended statement instantiated at `n₁ = 1`, `n₂ = 2`,
`k_vac = 1`. -/
theorem C2_witness :
    (0 : ℝ) < 1 ∧ (0 : ℝ) < 2 ∧
      calc_r_and_t ⟨Pol.s, FieldKind.E, 0, 1⟩ ((1 : ℝ) : ℂ) [] ((2 : ℝ) : ℂ) =
        ((((1 : ℝ) : ℂ) - ((2 : ℝ) : ℂ)) / (((1 : ℝ) : ℂ) + ((2 : ℝ) : ℂ)),
          2 * ((1 : ℝ) : ℂ) / (((1 : ℝ) : ℂ) + ((2 : ℝ) : ℂ))) :=
  ⟨by norm_num, by norm_num,
    (C2_fresnel_normal_incidence 1 2 1 (by norm_num) (by norm_num)).1⟩

theorem setN11_setN11 (s : TMState) (x y : ℝ) :
    setN11 (setN11 s x) y = setN11 s y := rfl

/-- Every state the scan loop leaves behind is the input state with some
probe written into `n_11`; all probes made by the loop lie at or above any
lower bound of its current position. -/
theorem rootSearchLoop_state (f : ℝ → TMState → ℝ × TMState)
    (Hf : ∀ x t, (f x t).2 = setN11 t x) (b dx lb : ℝ) (hdx : 0 ≤ dx) :
    ∀ (fuel : ℕ) (x1 f1 x2 f2 : ℝ) (s : TMState), lb ≤ x2 →
      (rootSearchLoop f b dx fuel x1 f1 x2 f2 s).2 = s ∨
        ∃ y, lb ≤ y ∧ (rootSearchLoop f b dx fuel x1 f1 x2 f2 s).2 = setN11 s y := by
  intro fuel
  induction fuel with
  | zero => intro x1 f1 x2 f2 s _; exact Or.inl rfl
  | succ n ih =>
      intro x1 f1 x2 f2 s hx2
      simp only [rootSearchLoop]
      split
      · split
        · exact Or.inl rfl
        · rcases ih x2 f2 (x2 + dx) (f (x2 + dx) s).1 (f (x2 + dx) s).2
              (by linarith) with h | ⟨y, hy, h⟩
          · exact Or.inr ⟨x2 + dx, by linarith, by rw [h, Hf]⟩
          · exact Or.inr ⟨y, hy, by rw [h, Hf, setN11_setN11]⟩
      · exact Or.inl rfl

/-- A successful bracket sits at or above any lower bound of the loop's
starting position, and is exactly one step wide. -/
theorem rootSearchLoop_success (f : ℝ → TMState → ℝ × TMState) (b dx lb : ℝ)
    (hdx : 0 ≤ dx) :
    ∀ (fuel : ℕ) (x1 f1 x2 f2 : ℝ) (s : TMState) (x1' x2' : ℝ) (s' : TMState),
      rootSearchLoop f b dx fuel x1 f1 x2 f2 s = (some (x1', x2'), s') →
      lb ≤ x1 → x2 = x1 + dx → lb ≤ x1' ∧ x2' = x1' + dx := by
  intro fuel
  induction fuel with
  | zero =>
      intro x1 f1 x2 f2 s x1' x2' s' h _ _
      simp only [rootSearchLoop, Prod.mk.injEq] at h
      exact absurd h.1 (by simp)
  | succ n ih =>
      intro x1 f1 x2 f2 s x1' x2' s' h hlb hx2
      simp only [rootSearchLoop] at h
      split at h
      · split at h
        · simp only [Prod.mk.injEq] at h
          exact absurd h.1 (by simp)
        · exact ih x2 f2 (x2 + dx) (f (x2 + dx) s).1 (f (x2 + dx) s).2
            x1' x2' s' h (by linarith) rfl
      · simp only [Prod.mk.injEq, Option.some.injEq] at h
        obtain ⟨⟨h1, h2⟩, -⟩ := h
        exact ⟨h1 ▸ hlb, by rw [← h1, ← h2, hx2]⟩

/-- `root_search` always probes (its first evaluation is at `a`), so its
final state carries some probe at or above any lower bound of `a`. -/
theorem root_search_st_state (f : ℝ → TMState → ℝ × TMState)
    (Hf : ∀ x t, (f x t).2 = setN11 t x) (b dx lb : ℝ) (hdx : 0 ≤ dx)
    (fuel : ℕ) (a : ℝ) (s : TMState) (hla : lb ≤ a) :
    ∃ y, lb ≤ y ∧ (root_search_st f a b dx fuel s).2 = setN11 s y := by
  unfold root_search_st
  rcases rootSearchLoop_state f Hf b dx lb hdx fuel a (f a s).1 (a + dx)
      (f (a + dx) (f a s).2).1 (f (a + dx) (f a s).2).2 (by linarith)
    with h | ⟨y, hy, h⟩
  · exact ⟨a + dx, by linarith, by rw [h, Hf, Hf, setN11_setN11]⟩
  · exact ⟨y, hy, by rw [h, Hf, Hf, setN11_setN11, setN11_setN11]⟩

/-- A successful `root_search` bracket lies at or above `a` and is one
step wide. -/
theorem root_search_st_success (f : ℝ → TMState → ℝ × TMState) (b dx lb : ℝ)
    (hdx : 0 ≤ dx) (fuel : ℕ) (a : ℝ) (s : TMState) (x1 x2 : ℝ) (s' : TMState)
    (h : root_search_st f a b dx fuel s = (some (x1, x2), s'))
    (hla : lb ≤ a) : lb ≤ x1 ∧ x2 = x1 + dx :=
  rootSearchLoop_success f b dx lb hdx fuel a (f a s).1 (a + dx)
    (f (a + dx) (f a s).2).1 (f (a + dx) (f a s).2).2 x1 x2 s' h hla rfl

/-- One unfolding of the `roots` driver when the bracket search fails. -/
theorem roots_st_eq_none {σ : Type} (f : ℝ → σ → ℝ × σ)
    (br : (ℝ → σ → ℝ × σ) → ℝ → ℝ → σ → ℝ × σ) (b dx : ℝ) (sfuel n : ℕ)
    (a : ℝ) (s s1 : σ) (h : root_search_st f a b dx sfuel s = (none, s1)) :
    roots_st f br b dx sfuel (n + 1) a s = ([], s1) := by
  simp only [roots_st, h]

/-- One unfolding of the `roots` driver when the bracket search succeeds. -/
theorem roots_st_eq_some {σ : Type} (f : ℝ → σ → ℝ × σ)
    (br : (ℝ → σ → ℝ × σ) → ℝ → ℝ → σ → ℝ × σ) (b dx : ℝ) (sfuel n : ℕ)
    (a : ℝ) (s s1 : σ) (x1 x2 : ℝ)
    (h : root_search_st f a b dx sfuel s = (some (x1, x2), s1)) :
    roots_st f br b dx sfuel (n + 1) a s =
      if (br f x1 x2 s1).1 = 0 then
        roots_st f br b dx sfuel n x2 (br f x1 x2 s1).2
      else
        (pyround5 (br f x1 x2 s1).1 ::
          (roots_st f br b dx sfuel n x2 (br f x1 x2 s1).2).1,
         (roots_st f br b dx sfuel n x2 (br f x1 x2 s1).2).2) := by
  simp only [roots_st, h]

/-- The `roots` driver either leaves the state exactly as received or
writes some value at or above any lower bound of its scan position into
`n_11`. -/
theorem roots_st_state (f : ℝ → TMState → ℝ × TMState)
    (Hf : ∀ x t, (f x t).2 = setN11 t x)
    (br : (ℝ → TMState → ℝ × TMState) → ℝ → ℝ → TMState → ℝ × TMState)
    (Hbr : ∀ x1 x2 t, x1 ≤ x2 →
      ∃ y, x1 ≤ y ∧ y ≤ x2 ∧ (br f x1 x2 t).2 = setN11 t y)
    (b dx : ℝ) (hdx : 0 ≤ dx) (sfuel : ℕ) :
    ∀ (fuel : ℕ) (lb a : ℝ) (s : TMState), lb ≤ a →
      (roots_st f br b dx sfuel fuel a s).2 = s ∨
        ∃ y, lb ≤ y ∧ (roots_st f br b dx sfuel fuel a s).2 = setN11 s y := by
  intro fuel
  induction fuel with
  | zero => intro lb a s _; exact Or.inl rfl
  | succ n ih =>
      intro lb a s hla
      rcases hrs : root_search_st f a b dx sfuel s with ⟨o, s1⟩
      rcases o with - | ⟨x1, x2⟩
      · obtain ⟨y, hy, hs1⟩ := root_search_st_state f Hf b dx lb hdx sfuel a s hla
        rw [hrs] at hs1
        rw [roots_st_eq_none f br b dx sfuel n a s s1 hrs]
        exact Or.inr ⟨y, hy, hs1⟩
      · obtain ⟨hx1, hx2⟩ :=
          root_search_st_success f b dx lb hdx sfuel a s x1 x2 s1 hrs hla
        obtain ⟨y0, hy0, hs1⟩ := root_search_st_state f Hf b dx lb hdx sfuel a s hla
        rw [hrs] at hs1
        have hs1' : s1 = setN11 s y0 := hs1
        obtain ⟨y1, hy1l, hy1r, hbr⟩ := Hbr x1 x2 s1 (by linarith)
        have hbrs : (br f x1 x2 s1).2 = setN11 s y1 := by
          rw [hbr, hs1', setN11_setN11]
        rw [roots_st_eq_some f br b dx sfuel n a s s1 x1 x2 hrs]
        have hrec := ih lb x2 ((br f x1 x2 s1).2) (by linarith)
        rcases hrec with h | ⟨y2, hy2, h⟩
        · split
          · exact Or.inr ⟨y1, by linarith, by rw [h, hbrs]⟩
          · exact Or.inr ⟨y1, by linarith, by rw [h, hbrs]⟩
        · split
          · exact Or.inr ⟨y2, hy2, by rw [h, hbrs, setN11_setN11]⟩
          · exact Or.inr ⟨y2, hy2, by rw [h, hbrs, setN11_setN11]⟩

/-- With positive fuel the `roots` driver always probes, so its final
state is the input with some scan value at or above the interval's lower
end written into `n_11`. -/
theorem roots_st_state_pos (f : ℝ → TMState → ℝ × TMState)
    (Hf : ∀ x t, (f x t).2 = setN11 t x)
    (br : (ℝ → TMState → ℝ × TMState) → ℝ → ℝ → TMState → ℝ × TMState)
    (Hbr : ∀ x1 x2 t, x1 ≤ x2 →
      ∃ y, x1 ≤ y ∧ y ≤ x2 ∧ (br f x1 x2 t).2 = setN11 t y)
    (b dx : ℝ) (hdx : 0 ≤ dx) (sfuel fuel : ℕ) (hfuel : 0 < fuel)
    (a : ℝ) (s : TMState) :
    ∃ y, a ≤ y ∧ (roots_st f br b dx sfuel fuel a s).2 = setN11 s y := by
  obtain ⟨n, rfl⟩ : ∃ n, fuel = n + 1 :=
    ⟨fuel - 1, (Nat.succ_pred_eq_of_pos hfuel).symm⟩
  rcases hrs : root_search_st f a b dx sfuel s with ⟨o, s1⟩
  rcases o with - | ⟨x1, x2⟩
  · obtain ⟨y, hy, hs1⟩ := root_search_st_state f Hf b dx a hdx sfuel a s le_rfl
    rw [hrs] at hs1
    rw [roots_st_eq_none f br b dx sfuel n a s s1 hrs]
    exact ⟨y, hy, hs1⟩
  · obtain ⟨hx1, hx2⟩ :=
      root_search_st_success f b dx a hdx sfuel a s x1 x2 s1 hrs le_rfl
    obtain ⟨y0, hy0, hs1⟩ := root_search_st_state f Hf b dx a hdx sfuel a s le_rfl
    rw [hrs] at hs1
    have hs1' : s1 = setN11 s y0 := hs1
    obtain ⟨y1, hy1l, hy1r, hbr⟩ := Hbr x1 x2 s1 (by linarith)
    have hbrs : (br f x1 x2 s1).2 = setN11 s y1 := by
      rw [hbr, hs1', setN11_setN11]
    rw [roots_st_eq_some f br b dx sfuel n a s s1 x1 x2 hrs]
    have hrec := roots_st_state f Hf br Hbr b dx hdx sfuel n a x2
      ((br f x1 x2 s1).2) (by linarith)
    rcases hrec with h | ⟨y2, hy2, h⟩
    · split
      · exact ⟨y1, by linarith, by rw [h, hbrs]⟩
      · exact ⟨y1, by linarith, by rw [h, hbrs]⟩
    · split
      · exact ⟨y2, hy2, by rw [h, hbrs, setN11_setN11]⟩
      · exact ⟨y2, hy2, by rw [h, hbrs, setN11_setN11]⟩

/-- Every value the `roots` driver returns is a five-decimal rounding of a
point at or above any lower bound of its scan position. -/
theorem roots_st_mem (f : ℝ → TMState → ℝ × TMState)
    (br : (ℝ → TMState → ℝ × TMState) → ℝ → ℝ → TMState → ℝ × TMState)
    (Hbr : ∀ x1 x2 t, x1 ≤ x2 →
      x1 ≤ (br f x1 x2 t).1 ∧ (br f x1 x2 t).1 ≤ x2)
    (b dx : ℝ) (hdx : 0 ≤ dx) (sfuel : ℕ) :
    ∀ (fuel : ℕ) (lb a : ℝ) (s : TMState), lb ≤ a →
      ∀ r ∈ (roots_st f br b dx sfuel fuel a s).1,
        ∃ y, lb ≤ y ∧ r = pyround5 y := by
  intro fuel
  induction fuel with
  | zero => intro lb a s _ r hr; exact absurd hr (List.not_mem_nil r)
  | succ n ih =>
      intro lb a s hla
      rcases hrs : root_search_st f a b dx sfuel s with ⟨o, s1⟩
      rcases o with - | ⟨x1, x2⟩
      · rw [roots_st_eq_none f br b dx sfuel n a s s1 hrs]
        intro r hr
        exact absurd hr (List.not_mem_nil r)
      · obtain ⟨hx1, hx2⟩ :=
          root_search_st_success f b dx lb hdx sfuel a s x1 x2 s1 hrs hla
        obtain ⟨hbl, hbu⟩ := Hbr x1 x2 s1 (by linarith)
        rw [roots_st_eq_some f br b dx sfuel n a s s1 x1 x2 hrs]
        intro r hr
        split at hr
        · exact ih lb x2 ((br f x1 x2 s1).2) (by linarith) r hr
        · rcases List.mem_cons.mp hr with h | h
          · exact ⟨(br f x1 x2 s1).1, by linarith, h⟩
          · exact ih lb x2 ((br f x1 x2 s1).2) (by linarith) r h

/-- C5, counterexample.  On the structure `n = [1, 3, 2]` the Methods
implementation's scan starts at `n[0] = 1`, not at the claimed
`max(n_entry, n_exit) = 2`; its first probes of `Re(S[0,0])` (witnessed by
the `n_11` they write into the configuration) lie below the claimed
interval. -/
theorem C5_counterexample :
    MTM_guided_scan_start demoScanState ≠
        max demoScanState.n0.re demoScanState.nLast.re ∧
      ((MTM_guided_scan brMid 0 1 demoScanState).2).cfg.n11 <
        max demoScanState.n0.re demoScanState.nLast.re := by
  constructor
  · show ((1 : ℝ) : ℂ).re ≠ max ((1 : ℝ) : ℂ).re ((2 : ℝ) : ℂ).re
    simp only [Complex.ofReal_re]
    norm_num
  · have hrs : root_search_st MTM_s11 (MTM_guided_scan_start demoScanState)
        (maxRe demoScanState) (1 / 100000) 0 demoScanState =
        (none, setN11 demoScanState
          (MTM_guided_scan_start demoScanState + 1 / 100000)) := rfl
    have h1 : MTM_guided_scan brMid 0 1 demoScanState =
        ([], setN11 demoScanState
          (MTM_guided_scan_start demoScanState + 1 / 100000)) :=
      roots_st_eq_none MTM_s11 brMid (maxRe demoScanState) (1 / 100000) 0 0
        (MTM_guided_scan_start demoScanState) demoScanState _ hrs
    rw [h1]
    show MTM_guided_scan_start demoScanState + 1 / 100000 <
      max demoScanState.n0.re demoScanState.nLast.re
    show ((1 : ℝ) : ℂ).re + 1 / 100000 < max ((1 : ℝ) : ℂ).re ((2 : ℝ) : ℂ).re
    simp only [Complex.ofReal_re]
    norm_num

/-- C5, amended.  The primary implementation's guided-mode finder scans
`Re(S[0,0])` upward from `max(n_entry, n_exit)` (with step `1e-5` and
nominal upper end `max(Re(nⱼ))`), and — for any root oracle that returns a
point of the bracket it is given — every returned eigenvalue is the
five-decimal rounding of a scan point at or above that lower end,
multiplied by `k_vac` unless `normalised`.  (The upper end is not a bound
on the output: the stepping loop checks `x1 >= b` only while no sign
change is in view, so a bracket — and hence a root — may exceed `b` by up
to two steps, and after a bracket beyond `b` the scan continues from its
right end.  The Methods implementation scans from `n[0]` instead of
`max(n_entry, n_exit)`: `C5_counterexample`.) -/
theorem C5_guided_scan_interval
    (br : (ℝ → TMState → ℝ × TMState) → ℝ → ℝ → TMState → ℝ × TMState)
    (hbr : ∀ x1 x2 t, x1 ≤ x2 →
      x1 ≤ (br TM_calc_s11 x1 x2 t).1 ∧ (br TM_calc_s11 x1 x2 t).1 ≤ x2)
    (sfuel fuel : ℕ) (normalised : Bool) (s : TMState) :
    ∀ l, (TM_calc_guided_modes br sfuel fuel normalised s).1 = some l →
      ∀ x ∈ l, ∃ y, max s.n0.re s.nLast.re ≤ y ∧
        (if normalised then x = pyround5 y else x = pyround5 y * s.cfg.kVac) := by
  intro l hl x hx
  unfold TM_calc_guided_modes at hl
  split at hl
  · simp only [Option.some.injEq] at hl
    subst hl
    have hmem : ∀ z, z ∈ (TM_guided_scan br sfuel fuel s).1 →
        ∃ y, max s.n0.re s.nLast.re ≤ y ∧ z = pyround5 y := by
      intro z hz
      obtain ⟨y, hy, hzy⟩ := roots_st_mem TM_calc_s11 br hbr (maxRe s)
        (1 / 100000) (by norm_num) sfuel fuel (TM_guided_scan_start s)
        (TM_guided_scan_start s) s le_rfl z hz
      exact ⟨y, hy, hzy⟩
    cases normalised with
    | true =>
        simp only [TM_postprocess] at hx
        have hx' : x ∈ (TM_guided_scan br sfuel fuel s).1 :=
          List.mem_reverse.mp (List.mem_filter.mp hx).1
        obtain ⟨y, hy, hxy⟩ := hmem x hx'
        exact ⟨y, hy, by simpa using hxy⟩
    | false =>
        simp only [TM_postprocess] at hx
        obtain ⟨z, hz, hxz⟩ := List.mem_map.mp hx
        have hz' : z ∈ (TM_guided_scan br sfuel fuel s).1 :=
          List.mem_reverse.mp (List.mem_filter.mp hz).1
        obtain ⟨y, hy, hzy⟩ := hmem z hz'
        refine ⟨y, hy, ?_⟩
        simp only [if_neg Bool.false_ne_true, ← hxz, hzy]
  · exact absurd hl (by simp)

/-- C5, witness: the bracket-midpoint oracle satisfies the bracket
hypothesis, and the amended statement holds at the `n = [1, 3, 2]`
structure. -/
theorem C5_witness :
    (∀ x1 x2 t, x1 ≤ x2 →
        x1 ≤ (brMid TM_calc_s11 x1 x2 t).1 ∧
          (brMid TM_calc_s11 x1 x2 t).1 ≤ x2) ∧
      ∀ l, (TM_calc_guided_modes brMid 2 3 true demoScanState).1 = some l →
        ∀ x ∈ l, ∃ y, max demoScanState.n0.re demoScanState.nLast.re ≤ y ∧
          (if true then x = pyround5 y
            else x = pyround5 y * demoScanState.cfg.kVac) := by
  have hbr : ∀ x1 x2 t, x1 ≤ x2 →
      x1 ≤ (brMid TM_calc_s11 x1 x2 t).1 ∧ (brMid TM_calc_s11 x1 x2 t).1 ≤ x2 := by
    intro x1 x2 t h
    constructor
    · show x1 ≤ (x1 + x2) / 2
      linarith
    · show (x1 + x2) / 2 ≤ x2
      linarith
  exact ⟨hbr, C5_guided_scan_interval brMid hbr 2 3 true demoScanState⟩

/-- C9, confirmed.  `calc_guided_modes` runs `calc_s11`, whose first line
is `self.n_11 = n_11`; with positive fuel the scan always probes, so the
configuration it returns is the input configuration with some scan value
(at or above the scan's lower end, hence above any `n_11` set before the
call from the radiative regime) written into `n_11` — the calculation is
not side-effect free on the configuration. -/
theorem C9_n11_mutation
    (br : (ℝ → TMState → ℝ × TMState) → ℝ → ℝ → TMState → ℝ × TMState)
    (hbr : ∀ x1 x2 t, x1 ≤ x2 →
      ∃ y, x1 ≤ y ∧ y ≤ x2 ∧ (br TM_calc_s11 x1 x2 t).2 = setN11 t y)
    (sfuel fuel : ℕ) (hfuel : 0 < fuel) (normalised : Bool) (s : TMState)
    (hg : TM_supports_guiding s)
    (hn : s.cfg.n11 < max s.n0.re s.nLast.re) :
    ∃ y, max s.n0.re s.nLast.re ≤ y ∧
      (TM_calc_guided_modes br sfuel fuel normalised s).2 = setN11 s y ∧
      ((TM_calc_guided_modes br sfuel fuel normalised s).2).cfg.n11 ≠
        s.cfg.n11 := by
  obtain ⟨y, hy, hstate⟩ := roots_st_state_pos TM_calc_s11 (fun _ _ => rfl) br
    hbr (maxRe s) (1 / 100000) (by norm_num) sfuel fuel hfuel
    (TM_guided_scan_start s) s
  have hscan : (TM_guided_scan br sfuel fuel s).2 = setN11 s y := hstate
  refine ⟨y, hy, ?_, ?_⟩
  · unfold TM_calc_guided_modes
    rw [if_pos hg]
    exact hscan
  · unfold TM_calc_guided_modes
    rw [if_pos hg, hscan]
    show y ≠ s.cfg.n11
    intro he
    rw [he] at hy
    have : max s.n0.re s.nLast.re ≤ s.cfg.n11 := hy
    linarith

/-- C9, witness: the mutation statement instantiated with the
bracket-midpoint oracle on the `n = [1, 3, 2]` structure with `n_11 = 0`
set before the call. -/
theorem C9_witness :
    (∀ x1 x2 t, x1 ≤ x2 →
        ∃ y, x1 ≤ y ∧ y ≤ x2 ∧ (brMid TM_calc_s11 x1 x2 t).2 = setN11 t y) ∧
      (0 : ℕ) < 1 ∧ TM_supports_guiding demoScanState ∧
      demoScanState.cfg.n11 < max demoScanState.n0.re demoScanState.nLast.re ∧
      ∃ y, max demoScanState.n0.re demoScanState.nLast.re ≤ y ∧
        (TM_calc_guided_modes brMid 1 1 false demoScanState).2 =
          setN11 demoScanState y ∧
        ((TM_calc_guided_modes brMid 1 1 false demoScanState).2).cfg.n11 ≠
          demoScanState.cfg.n11 := by
  have hbr : ∀ x1 x2 t, x1 ≤ x2 →
      ∃ y, x1 ≤ y ∧ y ≤ x2 ∧ (brMid TM_calc_s11 x1 x2 t).2 = setN11 t y :=
    fun x1 x2 t h => ⟨(x1 + x2) / 2, by linarith, by linarith, rfl⟩
  have hg : TM_supports_guiding demoScanState := by
    refine ⟨(((3 : ℝ) : ℂ), (1 : ℝ)), ?_, ?_⟩
    · show (((3 : ℝ) : ℂ), (1 : ℝ)) ∈ [((((3 : ℝ) : ℂ)), (1 : ℝ))]
      exact List.mem_singleton.mpr rfl
    · show max ((1 : ℝ) : ℂ).re ((2 : ℝ) : ℂ).re < ((3 : ℝ) : ℂ).re
      simp only [Complex.ofReal_re]
      norm_num
  have hn : demoScanState.cfg.n11 <
      max demoScanState.n0.re demoScanState.nLast.re := by
    show (0 : ℝ) < max ((1 : ℝ) : ℂ).re ((2 : ℝ) : ℂ).re
    simp only [Complex.ofReal_re]
    norm_num
  exact ⟨hbr, Nat.one_pos, hg, hn,
    C9_n11_mutation brMid hbr 1 1 Nat.one_pos false demoScanState hg hn⟩

theorem appendLayer_inv (s : StructState) (d : ℝ) (n : ℂ) (h : StructInv s) :
    StructInv (appendLayer s d n) := by
  obtain ⟨-, -, h3⟩ := h
  refine ⟨rfl, rfl, ?_⟩
  simp [appendLayer, h3]

theorem structFlip_inv (s : StructState) (h : StructInv s) :
    StructInv (structFlip s) := by
  obtain ⟨-, h2, h3⟩ := h
  refine ⟨rfl, ?_, ?_⟩
  · simpa [structFlip] using h2
  · simp [structFlip, h3]

theorem TM_add_layer_some {s : StructState} {d : ℝ} {n : ℂ} {s1 : StructState}
    (h : TM_add_layer s d n = some s1) : s1 = appendLayer s d n := by
  unfold TM_add_layer at h
  split at h
  · exact (Option.some_inj.mp h).symm
  · exact absurd h (by simp)

theorem MTM_add_layer_some {s : StructState} {d : ℝ} {n : ℂ} {s1 : StructState}
    (h : MTM_add_layer s d n = some s1) : s1 = appendLayer s d n := by
  unfold MTM_add_layer at h
  split at h
  · exact (Option.some_inj.mp h).symm
  · exact absurd h (by simp)

theorem TM_run_inv : ∀ (ops : List StructOp) (s s' : StructState),
    StructInv s → TM_run s ops = some s' → StructInv s' := by
  intro ops
  induction ops with
  | nil =>
      intro s s' h hrun
      rw [show TM_run s [] = some s from rfl] at hrun
      exact Option.some_inj.mp hrun ▸ h
  | cons op rest ih =>
      intro s s' h hrun
      cases op with
      | addLayer d n =>
          rcases hadd : TM_add_layer s d n with - | s1
          · have hnone : TM_run s (StructOp.addLayer d n :: rest) = none := by
              simp only [TM_run, hadd]
            rw [hnone] at hrun
            exact absurd hrun (by simp)
          · have hstep : TM_run s (StructOp.addLayer d n :: rest) =
                TM_run s1 rest := by
              simp only [TM_run, hadd]
            rw [hstep] at hrun
            have h1 : StructInv s1 := by
              rw [TM_add_layer_some hadd]
              exact appendLayer_inv s d n h
            exact ih s1 s' h1 hrun
      | flipOp =>
          rw [show TM_run s (StructOp.flipOp :: rest) =
            TM_run (structFlip s) rest from rfl] at hrun
          exact ih (structFlip s) s' (structFlip_inv s h) hrun

theorem MTM_run_inv : ∀ (ops : List StructOp) (s s' : StructState),
    StructInv s → MTM_run s ops = some s' → StructInv s' := by
  intro ops
  induction ops with
  | nil =>
      intro s s' h hrun
      rw [show MTM_run s [] = some s from rfl] at hrun
      exact Option.some_inj.mp hrun ▸ h
  | cons op rest ih =>
      intro s s' h hrun
      cases op with
      | addLayer d n =>
          rcases hadd : MTM_add_layer s d n with - | s1
          · have hnone : MTM_run s (StructOp.addLayer d n :: rest) = none := by
              simp only [MTM_run, hadd]
            rw [hnone] at hrun
            exact absurd hrun (by simp)
          · have hstep : MTM_run s (StructOp.addLayer d n :: rest) =
                MTM_run s1 rest := by
              simp only [MTM_run, hadd]
            rw [hstep] at hrun
            have h1 : StructInv s1 := by
              rw [MTM_add_layer_some hadd]
              exact appendLayer_inv s d n h
            exact ih s1 s' h1 hrun
      | flipOp =>
          rw [show MTM_run s (StructOp.flipOp :: rest) =
            MTM_run (structFlip s) rest from rfl] at hrun
          exact ih (structFlip s) s' (structFlip_inv s h) hrun

theorem zip_reverse_eq (l1 : List ℝ) (l2 : List ℂ) (h : l1.length = l2.length) :
    l1.reverse.zip l2.reverse = (l1.zip l2).reverse := by
  induction l1 generalizing l2 with
  | nil =>
      cases l2 with
      | nil => rfl
      | cons b t => simp at h
  | cons a t1 ih =>
      cases l2 with
      | nil => simp at h
      | cons b t2 =>
          simp only [List.length_cons, Nat.succ.injEq] at h
          simp only [List.reverse_cons, List.zip_cons_cons]
          rw [List.zip_append (by simp [h]), ih t2 h]
          simp

/-- C10, confirmed.  Every sequence of `add_layer` / `flip` operations
that runs without a failed assert preserves the bookkeeping invariant
(`d_cumulative` is the prefix sums of `d_list`, `num_layers` its length,
`d_list` and `n_list` of equal length), in both implementations; and
`flip` reverses the order of the `(thickness, index)` pairs while leaving
their multiset unchanged. -/
theorem C10_structure_invariant :
    (∀ (ops : List StructOp) (s s' : StructState),
        StructInv s → TM_run s ops = some s' → StructInv s') ∧
      (∀ (ops : List StructOp) (s s' : StructState),
        StructInv s → MTM_run s ops = some s' → StructInv s') ∧
      ∀ s : StructState, s.d_list.length = s.n_list.length →
        (structFlip s).d_list.zip (structFlip s).n_list =
            (s.d_list.zip s.n_list).reverse ∧
          ((structFlip s).d_list.zip (structFlip s).n_list : Multiset (ℝ × ℂ)) =
            (s.d_list.zip s.n_list : Multiset (ℝ × ℂ)) := by
  refine ⟨TM_run_inv, MTM_run_inv, ?_⟩
  intro s h
  have hz : (structFlip s).d_list.zip (structFlip s).n_list =
      (s.d_list.zip s.n_list).reverse := zip_reverse_eq s.d_list s.n_list h
  refine ⟨hz, ?_⟩
  rw [hz, Multiset.coe_reverse]

/-- C10, witness: adding the layer `(d, n) = (2, 3)` to the fresh
configuration and flipping preserves the invariant. -/
theorem C10_witness :
    StructInv initStruct ∧
      TM_run initStruct [StructOp.addLayer 2 ((3 : ℝ) : ℂ), StructOp.flipOp] =
        some (structFlip (appendLayer initStruct 2 ((3 : ℝ) : ℂ))) ∧
      StructInv (structFlip (appendLayer initStruct 2 ((3 : ℝ) : ℂ))) := by
  have h0 : StructInv initStruct := ⟨rfl, rfl, rfl⟩
  have hstep : TM_add_layer initStruct 2 ((3 : ℝ) : ℂ) =
      some (appendLayer initStruct 2 ((3 : ℝ) : ℂ)) := by
    unfold TM_add_layer
    rw [if_pos (⟨by norm_num, fun _ => Complex.ofReal_im 3⟩ :
      (0 : ℝ) ≤ 2 ∧ (initStruct.num_layers = 0 → ((3 : ℝ) : ℂ).im = 0))]
  have hrun : TM_run initStruct
      [StructOp.addLayer 2 ((3 : ℝ) : ℂ), StructOp.flipOp] =
      some (structFlip (appendLayer initStruct 2 ((3 : ℝ) : ℂ))) := by
    simp only [TM_run, hstep]
  exact ⟨h0, hrun, C10_structure_invariant.1
    [StructOp.addLayer 2 ((3 : ℝ) : ℂ), StructOp.flipOp] initStruct _ h0 hrun⟩

end
